import Mathlib

/-!
Shallow embedding of the poker-odds equity engine
(`crates/poker-odds-backend/src/solver.rs` and `src/lib.rs`).

Numeric abstraction: the Rust engine computes probabilities in `f32`.
Terminal values are exactly 0.0 or 1.0 and the recursion only adds such
values and divides by small integer counts, so we model `f32` by exact
rationals, except that we keep the one reachable IEEE special case:
`0.0 / 0.0 = NaN` (when a non-terminal node has no undrawn card left).
Machine integers (`u64` card masks, 16-lane SIMD bitmasks) are modelled
as `Nat`; every mask the engine builds fits in 52 (resp. 16) bits, and
all shift amounts in the source are small constants, so no wraparound
occurs on these paths.
-/

namespace PokerOdds

/-- Model of the engine's `f32` values: exact rationals plus NaN
(produced by the `0.0 / 0.0` division when no card is undrawn). -/
inductive F : Type
  | num (q : ℚ)
  | nan
  deriving DecidableEq, Repr

/-- `f32` addition: NaN propagates, otherwise exact rational addition
(the engine only ever adds probabilities; we abstract from rounding). -/
def F.add : F → F → F
  | F.num a, F.num b => F.num (a + b)
  | _, _ => F.nan

/-- `pb / n` where `n` is the (integer-valued) divisor `52 - drawn.len()`
cast to `f32`.  Division by zero of the accumulated `0.0` is IEEE NaN. -/
def F.divN : F → Nat → F
  | F.num a, n => if n = 0 then F.nan else F.num (a / (n : ℚ))
  | F.nan, _ => F.nan

/-- Sum of a list of `F` values, mirroring the `pb += ...` accumulation. -/
def sumF (l : List F) : F := l.foldl F.add (F.num 0)

/-- Number of set bits among bit positions 0..63: model of `u64::count_ones`. -/
def popcount (n : Nat) : Nat := (List.range 64).countP (fun i => n.testBit i)

/-- Bit length of a value `< 2^64`; `64 - x.leading_zeros()` in the source
equals `bitlen x` (also for `x = 0`). -/
def bitlen (n : Nat) : Nat := (List.range 64).countP (fun i => n >>> i != 0)

/-- `to_bitmask()` of a 16-lane SIMD comparison: lane `i` becomes bit `i`. -/
def laneBitmask : List Bool → Nat
  | [] => 0
  | b :: r => (if b then 1 else 0) + 2 * laneBitmask r

/-- First-match association-list lookup: model of `HashMap` / `DashMap`
get, with insertion at the head shadowing older entries (`insert`
overwrites, and only the newest entry for a key is ever visible). -/
def lookupM {α : Type} : List (Nat × α) → Nat → Option α
  | [], _ => none
  | (k, v) :: r, key => if k = key then some v else lookupM r key

/-- `memo.insert(k, v)`. -/
def insertM {α : Type} (m : List (Nat × α)) (k : Nat) (v : α) : List (Nat × α) :=
  (k, v) :: m

/-! ## Cards and parsing -/

/-- The ten hand categories, ordered by their discriminants. -/
inductive Rank : Type
  | HighCard | Pair | TwoPair | Trips | Straight | Flush
  | FullHouse | Quads | StraightFlush | RoyalFlush
  deriving DecidableEq, Repr

/-- Discriminant of a `Rank`; the derived `Ord` on the Rust enum compares
these values. -/
def Rank.val : Rank → Nat
  | .HighCard => 0 | .Pair => 1 | .TwoPair => 2 | .Trips => 3 | .Straight => 4
  | .Flush => 5 | .FullHouse => 6 | .Quads => 7 | .StraightFlush => 8
  | .RoyalFlush => 9

/-- A card: value 2..14, suit 0..3 (clubs, hearts, spades, diamonds, the
order scanned by `Card::new`), and the bit index `value*4 - 8 + suit`. -/
structure Card where
  value : Nat
  suit : Nat
  idx : Nat
  deriving DecidableEq, Repr

/-- `Card::new`: the fold over `[Clubs, Hearts, Spades, Diamonds]` adds the
position of the suit to `value * 4 - 8`. -/
def Card.new (value suit : Nat) : Card :=
  ⟨value, suit, value * 4 - 8 + suit⟩

/-- `Suits::from_char` (panic modelled as `none`), combined with the suit's
position used by `Card::new`. -/
def suitFromChar (c : Char) : Option Nat :=
  if c = 'c' then some 0
  else if c = 'h' then some 1
  else if c = 's' then some 2
  else if c = 'd' then some 3
  else none

/-- The value byte match in `Card::from_string`: `A K Q J T` and the ASCII
digits 50..=57 (`'2'..'9'`); anything else panics (`none`). -/
def valueFromChar (c : Char) : Option Nat :=
  if c = 'A' then some 14
  else if c = 'K' then some 13
  else if c = 'Q' then some 12
  else if c = 'J' then some 11
  else if c = 'T' then some 10
  else if 50 ≤ c.toNat ∧ c.toNat ≤ 57 then some (c.toNat - 48)
  else none

/-- `Card::from_string` reads `s[0]` and `s[1]` only: fewer than two
characters is an out-of-bounds panic (`none`), extra characters are
silently ignored. -/
def Card.from_string : List Char → Option Card
  | c1 :: c2 :: _ =>
    match valueFromChar c1, suitFromChar c2 with
    | some v, some s => some (Card.new v s)
    | _, _ => none
  | _ => none

/-! ## The hand evaluator (`impl Hand`) -/

/-- The thirteen 4-bit value-block masks padded with three zero lanes:
the `u64x16` `regs` array used by the value-block SIMD predicates. -/
def valueRegs : List Nat :=
  [0xF, 0xF <<< 4, 0xF <<< 8, 0xF <<< 12, 0xF <<< 16, 0xF <<< 20, 0xF <<< 24,
   0xF <<< 28, 0xF <<< 32, 0xF <<< 36, 0xF <<< 40, 0xF <<< 44, 0xF <<< 48,
   0, 0, 0]

/-- Per-lane `count_ones` of `cards_splat & regs`. -/
def blockCounts (cards : Nat) : List Nat :=
  valueRegs.map (fun r => popcount (cards &&& r))

/-- Bitmask of the lanes whose block count equals `c`
(`hits_count_set.simd_eq(splat(c)).to_bitmask()`). -/
def eqCountMask (cards c : Nat) : Nat :=
  laneBitmask ((blockCounts cards).map (fun x => x == c))

/-- Bitmask of the lanes whose block count is at least `c`
(`hits_count_set.simd_ge(splat(c)).to_bitmask()`). -/
def geCountMask (cards c : Nat) : Nat :=
  laneBitmask ((blockCounts cards).map (fun x => decide (c ≤ x)))

/-- Royal-flush base mask: `{T,J,Q,K,A}` of clubs. -/
def royalBase : Nat := 1 <<< 32 ||| 1 <<< 36 ||| 1 <<< 40 ||| 1 <<< 44 ||| 1 <<< 48

/-- `is_royal_flush`: the fold shifts the mask by one per suit (except on
the first iteration) and ORs the containment tests. -/
def is_royal_flush (cards : Nat) : Bool :=
  ((List.range 4).foldl
    (fun st x =>
      let mask := if x != 0 then st.1 <<< 1 else st.1
      (mask, st.2 || (mask &&& cards == mask)))
    (royalBase, false)).2

/-- King-high straight-flush mask of clubs, the starting mask of both
straight-flush scanners: `{9,T,J,Q,K}` of clubs. -/
def sfBase : Nat := 1 <<< 28 ||| 1 <<< 32 ||| 1 <<< 36 ||| 1 <<< 40 ||| 1 <<< 44

/-- The four ace bits 48..51. -/
def acesMask : Nat := 1 <<< 48 ||| 1 <<< 49 ||| 1 <<< 50 ||| 1 <<< 51

/-- Scalar `is_straight_flush` (the retained reference implementation).
In the source the mask is mutated (`<<= 1` inside the suit loop, `>>= 8`
after it), which leaves it at `(sfBase >> 4*i) << sh` when window `i` and
suit `sh` are tested — no bit of `sfBase` (lowest bit 28) is lost by these
shifts, so the closed form is exact.  At `i = 8` the window is the wheel
and the matching-suit ace must also be present.  Returns the kicker
(`13 - i`) on success. -/
def is_straight_flush (cards : Nat) : Option Nat :=
  (List.range 9).findSome? (fun i =>
    (List.range 4).findSome? (fun sh =>
      let mask := (sfBase >>> (4 * i)) <<< sh
      if (decide (i < 8) && (mask &&& cards == mask))
          || (decide (i = 8) && (mask &&& cards == mask)
              && ((cards &&& acesMask) &&& (1 <<< (48 + sh)) != 0))
      then some (13 - i) else none))

/-- `is_straight_flush_simd`: for each suit the nine windows (wheel in
lane 0, king-high in lane 8) are tested at once; lanes 9..15 compare a
zero register and always match, and the `ZERO_OUT_MASK` xor clears those
seven bits.  The kicker is `64 - leading_zeros` of the match mask. -/
def is_straight_flush_simd (cards : Nat) : Option Nat :=
  (List.range 4).findSome? (fun sh =>
    let base := sfBase <<< sh
    let acs := (1 <<< 48) <<< sh
    let regs : List Nat :=
      [base >>> 32 ||| acs, base >>> 28, base >>> 24, base >>> 20, base >>> 16,
       base >>> 12, base >>> 8, base >>> 4, base, 0, 0, 0, 0, 0, 0, 0]
    let m := laneBitmask (regs.map (fun r => cards &&& r == r)) ^^^ 0b1111111000000000
    if m = 0 then none else some (bitlen m))

/-- `is_quads_simd`: containment of each full value block; the three
always-matching zero lanes are cleared by the xor. -/
def is_quads_simd (cards : Nat) : Option Nat :=
  let m := laneBitmask (valueRegs.map (fun r => cards &&& r == r))
    ^^^ (1 <<< 13 ||| 1 <<< 14 ||| 1 <<< 15)
  if m = 0 then none else some (bitlen m)

/-- `is_fullhouse_simd`. -/
def is_fullhouse_simd (cards : Nat) : Option Nat :=
  let eq3 := eqCountMask cards 3
  let ge2 := geCountMask cards 2
  if eq3 = 0 then none
  else
    let shift3 := bitlen eq3 - 1
    let g := ge2 ^^^ (1 <<< shift3)
    if g = 0 then none
    else some (shift3 * 100 + (bitlen g - 1))

/-- The clubs suit-lane mask, bits 0, 4, ..., 48
(`(0..52).step_by(4).fold(0, acc | 1 << x)`). -/
def suitMask : Nat := (List.range 13).foldl (fun a k => a ||| (1 <<< (4 * k))) 0

/-- `is_flush_simd`: four suit lanes, then the highest occupied bit of the
matched suit's cards as kicker. -/
def is_flush_simd (cards : Nat) : Option Nat :=
  let lanes : List Nat := [suitMask, suitMask <<< 1, suitMask <<< 2, suitMask <<< 3]
  let m := laneBitmask (lanes.map (fun r => decide (5 ≤ popcount (cards &&& r))))
  if m = 0 then none
  else
    let d := bitlen m - 1
    some (bitlen ((suitMask <<< d) &&& cards))

/-- `is_straight_simd`: project to a value-presence bitmap (shifted left by
one, with the ace copied to bit 0), then test the eleven 5-in-a-row
windows; the five always-matching zero-mask lanes are cleared by the xor. -/
def is_straight_simd (cards : Nat) : Option Nat :=
  let hits := valueRegs.map (fun r => cards &&& r)
  let mask0 := laneBitmask (hits.map (fun h => h != 0)) <<< 1
  let mask := mask0 ||| (if 0 < (1 <<< 13) &&& mask0 then 1 else 0)
  let ms : List Nat :=
    [0, 0, 0, 0, 0, 31, 62, 124, 248, 496, 992, 1984, 3968, 7936, 15872, 31744]
  let z := laneBitmask (ms.map (fun mi => mask &&& mi == mi))
    ^^^ (1 ||| 1 <<< 1 ||| 1 <<< 2 ||| 1 <<< 3 ||| 1 <<< 4)
  if z = 0 then none else some (bitlen z - 1)

/-- `is_three_of_a_kind_simd`.  When fewer than two singleton lanes exist
the Rust `1 << (d - 1)` underflows the shift amount and would trap; that
situation is unreachable for the 7-card sets `rank` feeds in (a companion
pair would already have been classified as a full house), and we model the
`Nat` value `1 <<< (d - 1)` with truncated subtraction. -/
def is_three_of_a_kind_simd (cards : Nat) : Option Nat :=
  let val3 := eqCountMask cards 3
  if val3 = 0 then none
  else
    let val1 := eqCountMask cards 1
    let t0 := bitlen val3
    let d1 := bitlen val1
    let v1 := val1 ^^^ (1 <<< (d1 - 1))
    let d2 := bitlen v1
    some ((t0 * 100 + d1) * 100 + d2)

/-- `is_two_pair_simd`. -/
def is_two_pair_simd (cards : Nat) : Option Nat :=
  let val2 := eqCountMask cards 2
  if popcount val2 < 2 then none
  else
    let val1 := eqCountMask cards 1
    let d1 := bitlen val2
    let v2 := val2 ^^^ (1 <<< (d1 - 1))
    let d2 := bitlen v2
    some ((d1 * 100 + d2) * 100 + bitlen val1)

/-- `is_pair_simd`: the kicker keeps the pair lane and the top **two**
singleton lanes only. -/
def is_pair_simd (cards : Nat) : Option Nat :=
  let val2 := eqCountMask cards 2
  if val2 = 0 then none
  else
    let val1 := eqCountMask cards 1
    let d1 := bitlen val1
    let v1 := val1 ^^^ (1 <<< (d1 - 1))
    let d2 := bitlen v1
    some ((bitlen val2 * 100 + d1) * 100 + d2)

/-- Loop body of `compute_kicker_for_high_card`: scan the value blocks from
aces down, collecting singleton values; the kicker is written (and the
loop broken) when the fifth singleton is found, otherwise it is left
untouched (`none`). -/
def highCardGo : List Nat → Nat → Nat → Nat → Option Nat
  | [], _, _, _ => none
  | i :: rest, cards, tmp, count =>
    let mask := ((0xF : Nat) <<< 48) >>> (4 * i)
    let st :=
      if popcount (cards &&& mask) = 1 then (tmp * 100 + (14 - i), count + 1)
      else (tmp, count)
    if st.2 = 5 then some st.1 else highCardGo rest cards st.1 st.2

/-- `compute_kicker_for_high_card`. -/
def compute_kicker_for_high_card (cards : Nat) : Option Nat :=
  highCardGo (List.range 13) cards 0 0

/-- The classification cascade of `Hand::rank` on a card-set key, returning
the category and the kicker the matching predicate wrote (`none` when no
predicate writes one: a royal flush, or a high card with fewer than five
singleton blocks, leaves `self.kicker` unchanged). -/
def rankCore (cards : Nat) : Rank × Option Nat :=
  if is_royal_flush cards then (Rank.RoyalFlush, none)
  else match is_straight_flush_simd cards with
  | some k => (Rank.StraightFlush, some k)
  | none => match is_quads_simd cards with
  | some k => (Rank.Quads, some k)
  | none => match is_fullhouse_simd cards with
  | some k => (Rank.FullHouse, some k)
  | none => match is_flush_simd cards with
  | some k => (Rank.Flush, some k)
  | none => match is_straight_simd cards with
  | some k => (Rank.Straight, some k)
  | none => match is_three_of_a_kind_simd cards with
  | some k => (Rank.Trips, some k)
  | none => match is_two_pair_simd cards with
  | some k => (Rank.TwoPair, some k)
  | none => match is_pair_simd cards with
  | some k => (Rank.Pair, some k)
  | none => (Rank.HighCard, compute_kicker_for_high_card cards)

/-- A player's hand: the two hole cards, their bitmask, the private memo
from 7-card keys to the **rank only**, and the last kicker written. -/
structure Hand where
  hole0 : Card
  hole1 : Card
  hole_b : Nat
  memo : List (Nat × Rank)
  kicker : Nat
  deriving DecidableEq, Repr

/-- `Hand::new`. -/
def Hand.new (c0 c1 : Card) : Hand :=
  ⟨c0, c1, (1 <<< c0.idx) ||| (1 <<< c1.idx), [], 0⟩

/-- `Hand::rank`: on a memo hit the cached rank is returned and the hand
(kicker included) is untouched; on a miss the cascade runs, the kicker is
updated if a predicate wrote one, and only the rank is inserted into the
memo. -/
def Hand.rank (h : Hand) (board : Nat) : Rank × Hand :=
  let key := h.hole_b ||| board
  match lookupM h.memo key with
  | some r => (r, h)
  | none =>
    let rc := rankCore key
    (rc.1, ⟨h.hole0, h.hole1, h.hole_b, insertM h.memo key rc.1, rc.2.getD h.kicker⟩)

/-- `Hand::from_string`: `split_at(2)` panics on fewer than two characters;
the two halves are parsed as cards (the second half may carry ignored
extra characters). -/
def Hand.from_string (s : List Char) : Option Hand :=
  if s.length < 2 then none
  else match Card.from_string (s.take 2), Card.from_string (s.drop 2) with
    | some a, some b => some (Hand.new a b)
    | _, _ => none

/-- The (rank, kicker) pair a fresh hand (kicker 0, empty memo) observes
for a card set: the specification-level value of a 7-card combination. -/
def rankOf (cards : Nat) : Rank × Nat :=
  ((rankCore cards).1, (rankCore cards).2.getD 0)

/-! ## BitSet, Game, Brancher -/

/-- `BitSet`: a 64-bit set with an explicitly tracked length. -/
structure BitSet where
  s : Nat
  length : Nat
  deriving DecidableEq, Repr

/-- `BitSet::new`. -/
def BitSet.new : BitSet := ⟨0, 0⟩

/-- `BitSet::contains`. -/
def BitSet.contains (b : BitSet) (idx : Nat) : Bool :=
  (b.s >>> idx) &&& 1 == 1

/-- `BitSet::add` (a no-op when the element is present). -/
def BitSet.add (b : BitSet) (idx : Nat) : BitSet :=
  if b.contains idx then b else ⟨b.s ||| (1 <<< idx), b.length + 1⟩

/-- `BitSet::remove` (a no-op when the element is absent). -/
def BitSet.remove (b : BitSet) (idx : Nat) : BitSet :=
  if b.contains idx then ⟨b.s - (1 <<< idx), b.length - 1⟩ else b

/-- `BitSet::add_board`: merge a board mask, counting only the new bits. -/
def BitSet.add_board (b : BitSet) (board : Nat) : BitSet :=
  ⟨b.s ||| board, b.length + (popcount board - popcount (board &&& b.s))⟩

/-- `Game`: the seats and the hero's position. -/
structure Game where
  hero_pos : Nat
  hands : List Hand
  deriving DecidableEq, Repr

/-- `Brancher`.  `memo` models the `Arc<DashMap<u64, f32>>` shared equity
memo; concurrent access is modelled by threading it sequentially
(a linearization of the DashMap's per-key atomic operations). -/
structure Brancher where
  game : Game
  hero : Hand
  drawn : BitSet
  board : Nat
  memo : List (Nat × F)
  deriving DecidableEq, Repr

/-- `Brancher::new`: `game.hands[game.hero_pos]` panics (`none`) when the
seat does not exist; the drawn set collects every hole card and then the
board mask. -/
def Brancher.new (game : Game) (board : Nat) (memo : List (Nat × F)) : Option Brancher :=
  match game.hands[game.hero_pos]? with
  | none => none
  | some hero =>
    let drawn := (game.hands.foldl
      (fun d h => (d.add h.hole0.idx).add h.hole1.idx) BitSet.new).add_board board
    some ⟨game, hero, drawn, board, memo⟩

/-! ## The recursive equity search -/

/-- Villain loop of the terminal case of `Brancher::branch`:
`iter_mut().enumerate().filter(i != hero_pos).all(...)`, threading each
villain's mutated hand state and short-circuiting on the first villain
that is not beaten (whose `rank` call has still mutated that hand). -/
def beatsAllGo (heroPos : Nat) (board : Nat) (hr : Rank) (hk : Nat) :
    Nat → List Hand → Bool × List Hand
  | _, [] => (true, [])
  | i, h :: rest =>
    if i = heroPos then
      let t := beatsAllGo heroPos board hr hk (i + 1) rest
      (t.1, h :: t.2)
    else
      if decide ((Hand.rank h board).1.val < hr.val)
          || (decide ((Hand.rank h board).1 = hr)
              && decide ((Hand.rank h board).2.kicker < hk)) then
        let t := beatsAllGo heroPos board hr hk (i + 1) rest
        (t.1, (Hand.rank h board).2 :: t.2)
      else (false, (Hand.rank h board).2 :: rest)

/-- Terminal case of `Brancher::branch` (`board.count_ones() == 5`):
rank the hero, test every villain, store 1.0 or 0.0 under the drawn-set
key and return it. -/
def terminalEval (br : Brancher) (board : Nat) : F × Brancher :=
  let hrk := Hand.rank br.hero board
  let t := beatsAllGo br.game.hero_pos board hrk.1 hrk.2.kicker 0 br.game.hands
  let val := if t.1 then F.num 1 else F.num 0
  (val, ⟨⟨br.game.hero_pos, t.2⟩, hrk.2, br.drawn, br.board,
    insertM br.memo br.drawn.s val⟩)

/-- `Brancher::add_to_end_of_board`: add the card to the drawn set and OR
its bit into the board. -/
def add_to_end_of_board (br : Brancher) (i : Nat) (board : Nat) : Brancher × Nat :=
  (⟨br.game, br.hero, br.drawn.add i, br.board, br.memo⟩, board ||| (1 <<< i))

/-- `Brancher::remove_from_end_of_board`: remove the card from the drawn
set and subtract its bit from the board. -/
def remove_from_end_of_board (br : Brancher) (i : Nat) (board : Nat) : Brancher × Nat :=
  (⟨br.game, br.hero, br.drawn.remove i, br.board, br.memo⟩, board - (1 <<< i))

/-- The `for i in 0..52` loop body of `Brancher::branch` (also the worker
loop of `branch_parallel`, which runs the same body over `s..e`): skip
drawn cards, otherwise `add_to_end_of_board`, recurse through `next`,
`remove_from_end_of_board`, and accumulate `pb`. -/
def branchGo (next : Brancher → Nat → F × Brancher) :
    List Nat → F → Brancher → Nat → F × Brancher × Nat
  | [], pb, br, board => (pb, br, board)
  | i :: rest, pb, br, board =>
    if br.drawn.contains i then branchGo next rest pb br board
    else
      let a := add_to_end_of_board br i board
      let t := next a.1 a.2
      let r := remove_from_end_of_board t.2 i a.2
      branchGo next rest (F.add pb t.1) r.1 r.2

/-- `Brancher::branch`, with a fuel bound on the recursion depth (every
reachable call needs at most `5 - popcount board` expansions; exhausted
fuel — which on the Rust side would be an unbounded recursion past any
terminal board — yields NaN).  Defined by `Nat.rec` so that concrete
searches reduce inside the kernel. -/
def branch (fuel : Nat) : Brancher → Nat → F × Brancher :=
  Nat.rec
    (fun br board =>
      match lookupM br.memo br.drawn.s with
      | some v => (v, br)
      | none =>
        if popcount board = 5 then terminalEval br board
        else (F.nan, br))
    (fun _ ih br board =>
      match lookupM br.memo br.drawn.s with
      | some v => (v, br)
      | none =>
        if popcount board = 5 then terminalEval br board
        else
          let t := branchGo ih (List.range 52) (F.num 0) br board
          let pb := F.divN t.1 (52 - t.2.1.drawn.length)
          (pb, ⟨t.2.1.game, t.2.1.hero, t.2.1.drawn, t.2.1.board,
            insertM t.2.1.memo t.2.1.drawn.s pb⟩))
    fuel

/-- The chunk bounds of `branch_parallel`:
`(0..52).step_by(52 / nthreads)` with each chunk end clamped to 52. -/
def chunksFor (nthreads : Nat) : List (Nat × Nat) :=
  let step := 52 / nthreads
  ((List.range 52).filter (fun s => s % step = 0)).map (fun s => (s, min (s + step) 52))

/-- One worker of `branch_parallel`: a clone of the root brancher (hands,
hero, drawn set, board) holding the shared memo in its current state, and
running the root loop over its index range.  Returns the partial sum and
the memo as the worker leaves it. -/
def workerRun (fuel : Nat) (br : Brancher) (memo : List (Nat × F)) (c : Nat × Nat) :
    F × List (Nat × F) :=
  let local0 : Brancher := ⟨br.game, br.hero, br.drawn, br.board, memo⟩
  let t := branchGo (branch fuel) (List.range' c.1 (c.2 - c.1)) (F.num 0) local0 br.board
  (t.1, t.2.1.memo)

/-- `Brancher::branch_parallel`: sum the workers' partial sums and divide
by the number of undrawn cards.  The workers' concurrent access to the
shared memo is linearized: each worker sees the memo as the previous one
left it. -/
def branch_parallel (fuel : Nat) (br : Brancher) (nthreads : Nat) : F × List (Nat × F) :=
  let t := (chunksFor nthreads).foldl
    (fun acc c =>
      let w := workerRun fuel br acc.2 c
      (F.add acc.1 w.1, w.2))
    (F.num 0, br.memo)
  (F.divN t.1 (52 - br.drawn.length), t.2)

/-- `Brancher::compute_equity`: cached value if present; single-threaded
`branch` when four or more board cards are fixed; otherwise parallel
dispatch on 8 threads followed by inserting the root value. -/
def compute_equity (fuel : Nat) (br : Brancher) : F × List (Nat × F) :=
  match lookupM br.memo br.drawn.s with
  | some v => (v, br.memo)
  | none =>
    if 4 ≤ popcount br.board then
      let t := branch fuel br br.board
      (t.1, t.2.memo)
    else
      let t := branch_parallel fuel br 8
      (t.1, insertM t.2 br.drawn.s t.1)

/-! ## The solver facade -/

/-- Parse the hole-card strings in order; any panic aborts the call. -/
def parseHands : List (List Char) → Option (List Hand)
  | [] => some []
  | s :: rest =>
    match Hand.from_string s, parseHands rest with
    | some h, some hs => some (h :: hs)
    | _, _ => none

/-- `bd.chunks(2)`. -/
def chunks2 : List Char → List (List Char)
  | [] => []
  | [a] => [[a]]
  | a :: b :: r => [a, b] :: chunks2 r

/-- One step of the board-parsing loop of `Solver::solve`: parse the
2-character chunk and OR the card's bit into the board mask (an earlier
panic, `none`, propagates). -/
def boardStep (acc : Option Nat) (c : List Char) : Option Nat :=
  match acc, Card.from_string c with
  | some m, some card => some (m ||| (1 <<< card.idx))
  | _, _ => none

/-- The board-parsing loop of `Solver::solve`: each 2-character chunk is a
card whose bit is ORed into the board mask; a trailing single character
reaches `Card::from_string` and panics there. -/
def parseBoard (bd : List Char) : Option Nat :=
  (chunks2 bd).foldl boardStep (some 0)

/-- `Solver::solve` on an engine whose shared memo currently holds `memo`:
parse the hands and the board, build the brancher with hero seat 0, run
`compute_equity`, and return the probability together with the engine's
memo afterwards.  Fuel 5 covers every reachable recursion depth. -/
def Solver.solve (memo : List (Nat × F)) (hands : List (List Char)) (bd : List Char) :
    Option (F × List (Nat × F)) :=
  match parseHands hands with
  | none => none
  | some hs =>
    match parseBoard bd with
    | none => none
    | some board =>
      match Brancher.new ⟨0, hs⟩ board memo with
      | none => none
      | some br => some (compute_equity 5 br)

/-- The crate-level entry point `solve` (`lib.rs`): a fresh `Solver` — and
hence an empty shared memo — is created for each call. -/
def solve (hands : List (List Char)) (bd : List Char) : Option (F × List (Nat × F)) :=
  Solver.solve [] hands bd

/-! ## Specification-side definitions -/

/-- Lexicographic strict order on (rank, kicker) pairs, as the
specification describes the showdown comparison: rank first, kicker
breaking ties within the same rank. -/
def pairLexLt (p q : Rank × Nat) : Prop :=
  p.1.val < q.1.val ∨ (p.1 = q.1 ∧ p.2 < q.2)

instance (p q : Rank × Nat) : Decidable (pairLexLt p q) := by
  unfold pairLexLt; infer_instance

/-! ## Bit-level toolkit -/

theorem one_shiftLeft_eq (i : Nat) : (1 : Nat) <<< i = 2 ^ i := by
  rw [Nat.shiftLeft_eq, one_mul]

theorem contains_eq_testBit (b : BitSet) (i : Nat) :
    b.contains i = b.s.testBit i := by
  simp only [BitSet.contains, Nat.and_one_is_mod, Nat.testBit_to_div_mod,
    Nat.shiftRight_eq_div_pow]
  rcases Nat.mod_two_eq_zero_or_one (b.s / 2 ^ i) with h | h <;> simp [h]

theorem testBit_one_zero : (1 : Nat).testBit 0 = true := by decide

theorem testBit_one_of_pos {k : Nat} (h : 0 < k) : (1 : Nat).testBit k = false := by
  have : ((2 : Nat) ^ 0).testBit k = false := Nat.testBit_two_pow_of_ne (by omega)
  simpa using this

theorem lor_two_pow_of_testBit_eq_false {s i : Nat} (h : s.testBit i = false) :
    s ||| 2 ^ i = s + 2 ^ i := by
  have hdm : 2 ^ (i + 1) * (s / 2 ^ (i + 1)) + s % 2 ^ (i + 1) = s :=
    Nat.div_add_mod s (2 ^ (i + 1))
  have hlt : s % 2 ^ (i + 1) < 2 ^ (i + 1) := Nat.mod_lt _ (Nat.two_pow_pos _)
  have hlo : s % 2 ^ (i + 1) < 2 ^ i := by
    have h2 : s / 2 ^ i % 2 = 0 := by
      have h' : ¬ s / 2 ^ i % 2 = 1 := by
        simpa [Nat.testBit_to_div_mod] using h
      omega
    have h3 : s % 2 ^ (i + 1) / 2 ^ i = s / 2 ^ i % 2 := by
      rw [pow_succ]; exact Nat.mod_mul_right_div_self s (2 ^ i) 2
    exact (Nat.div_eq_zero_iff (Nat.two_pow_pos i)).mp (by omega)
  have hp2 : (2 : Nat) ^ (i + 1) = 2 ^ i + 2 ^ i := by rw [pow_succ]; omega
  apply Nat.eq_of_testBit_eq
  intro j
  have hsum : s + 2 ^ i = 2 ^ (i + 1) * (s / 2 ^ (i + 1)) + (s % 2 ^ (i + 1) + 2 ^ i) := by
    omega
  have hlosum : s % 2 ^ (i + 1) + 2 ^ i = 2 ^ i * 1 + s % 2 ^ (i + 1) := by omega
  rw [Nat.testBit_lor, hsum,
    Nat.testBit_mul_pow_two_add _ (show s % 2 ^ (i + 1) + 2 ^ i < 2 ^ (i + 1) by omega) j]
  conv_lhs => rw [← hdm, Nat.testBit_mul_pow_two_add _ hlt j]
  rcases Nat.lt_trichotomy j i with hj | hj | hj
  · have hj1 : j < i + 1 := by omega
    rw [if_pos hj1, if_pos hj1, hlosum,
      Nat.testBit_mul_pow_two_add _ hlo j, if_pos hj,
      Nat.testBit_two_pow_of_ne (by omega : i ≠ j)]
    simp
  · subst hj
    have hj1 : j < j + 1 := by omega
    rw [if_pos hj1, if_pos hj1, hlosum,
      Nat.testBit_mul_pow_two_add _ hlo j, if_neg (by omega : ¬ j < j),
      Nat.testBit_two_pow_self]
    simp [Nat.sub_self, testBit_one_zero]
  · have hj1 : ¬ j < i + 1 := by omega
    rw [if_neg hj1, if_neg hj1, Nat.testBit_two_pow_of_ne (by omega : i ≠ j)]
    simp

theorem count_range (i n : Nat) : (List.range n).count i = if i < n then 1 else 0 := by
  induction n with
  | zero => simp
  | succ n ih =>
    rw [List.range_succ, List.count_append, ih]
    rcases Nat.lt_trichotomy i n with h | h | h
    · simp [List.count_cons, Nat.ne_of_gt h, if_pos h, if_pos (Nat.lt_succ_of_lt h)]
    · subst h
      simp [List.count_cons]
    · rw [if_neg (by omega), List.count_cons, List.count_nil,
        if_neg (by simp; omega), if_neg (by omega)]

theorem countP_lor_two_pow (l : List Nat) {s i : Nat} (h : s.testBit i = false) :
    l.countP (fun j => (s ||| 2 ^ i).testBit j) =
      l.countP (fun j => s.testBit j) + l.count i := by
  induction l with
  | nil => simp
  | cons a l ih =>
    rw [List.countP_cons, List.countP_cons, List.count_cons, ih,
      Nat.testBit_lor, Nat.testBit_two_pow]
    rcases eq_or_ne a i with rfl | hne
    · rw [h]; simp; omega
    · have hd : (decide (i = a)) = false := by simp [Ne.symm hne]
      rw [hd]
      simp only [Bool.or_false, beq_iff_eq, if_neg hne]
      omega

theorem countP_not {α : Type} (p : α → Bool) (l : List α) :
    l.countP (fun a => !(p a)) = l.length - l.countP p := by
  induction l with
  | nil => simp
  | cons a l ih =>
    have hle := List.countP_le_length p (l := l)
    rw [List.countP_cons, List.countP_cons, ih]
    cases h : p a <;> (simp [h]; try omega)

theorem popcount_eq_countP_52 {s : Nat} (h : s < 2 ^ 52) :
    popcount s = (List.range 52).countP (fun i => s.testBit i) := by
  rw [popcount, show (64 : Nat) = 52 + 12 from rfl, List.range_add,
    List.countP_append, List.countP_map]
  have hz : List.countP ((fun i => s.testBit i) ∘ (fun x => 52 + x)) (List.range 12) = 0 := by
    apply List.countP_eq_zero.mpr
    intro x _
    have hlt2 : s < 2 ^ (52 + x) :=
      lt_of_lt_of_le h (Nat.pow_le_pow_right (by omega) (by omega))
    simpa [Function.comp] using Nat.testBit_eq_false_of_lt hlt2
  rw [hz]
  simp

theorem popcount_lor_two_pow {s i : Nat} (hi : i < 64) (h : s.testBit i = false) :
    popcount (s ||| 2 ^ i) = popcount s + 1 := by
  rw [popcount, popcount, countP_lor_two_pow _ h, count_range, if_pos hi]

/-- Number of undrawn cards scanned by the `0..52` loop. -/
theorem countP_undrawn {b : BitSet} (hlen : b.length = popcount b.s)
    (hlt : b.s < 2 ^ 52) :
    (List.range 52).countP (fun i => !(b.contains i)) = 52 - b.length := by
  have hc : (List.range 52).countP (fun i => b.contains i)
      = (List.range 52).countP (fun i => b.s.testBit i) := by
    apply List.countP_congr
    intro x _
    rw [contains_eq_testBit]
  rw [countP_not, hc, List.length_range, ← popcount_eq_countP_52 hlt, ← hlen]

/-- Adding a fresh element and removing it again restores the set. -/
theorem add_remove_of_not_contains {b : BitSet} {i : Nat}
    (h : b.contains i = false) : (b.add i).remove i = b := by
  have htb : b.s.testBit i = false := by rw [← contains_eq_testBit]; exact h
  have hadd : b.add i = ⟨b.s ||| (1 <<< i), b.length + 1⟩ := by
    simp [BitSet.add, h]
  have hc2 : (⟨b.s ||| (1 <<< i), b.length + 1⟩ : BitSet).contains i = true := by
    rw [contains_eq_testBit]
    simp [Nat.testBit_lor, one_shiftLeft_eq, Nat.testBit_two_pow_self]
  rw [hadd, BitSet.remove, hc2]
  simp only [one_shiftLeft_eq, lor_two_pow_of_testBit_eq_false htb]
  simp

end PokerOdds



namespace PokerOdds

/-! ## Unfolding and state-preservation lemmas for the search -/

theorem branch_zero (br : Brancher) (board : Nat) :
    branch 0 br board =
      match lookupM br.memo br.drawn.s with
      | some v => (v, br)
      | none =>
        if popcount board = 5 then terminalEval br board else (F.nan, br) := rfl

theorem branch_succ (f : Nat) (br : Brancher) (board : Nat) :
    branch (f + 1) br board =
      match lookupM br.memo br.drawn.s with
      | some v => (v, br)
      | none =>
        if popcount board = 5 then terminalEval br board
        else
          let t := branchGo (branch f) (List.range 52) (F.num 0) br board
          let pb := F.divN t.1 (52 - t.2.1.drawn.length)
          (pb, ⟨t.2.1.game, t.2.1.hero, t.2.1.drawn, t.2.1.board,
            insertM t.2.1.memo t.2.1.drawn.s pb⟩) := rfl

theorem branch_hit {br : Brancher} {v : F} (fuel : Nat) (board : Nat)
    (h : lookupM br.memo br.drawn.s = some v) :
    branch fuel br board = (v, br) := by
  cases fuel with
  | zero => rw [branch_zero, h]
  | succ f => rw [branch_succ, h]

theorem branch_terminal {br : Brancher} {board : Nat} (fuel : Nat)
    (h : lookupM br.memo br.drawn.s = none) (h5 : popcount board = 5) :
    branch fuel br board = terminalEval br board := by
  cases fuel with
  | zero => rw [branch_zero, h]; simp [h5]
  | succ f => rw [branch_succ, h]; simp [h5]

theorem branch_nonterminal {br : Brancher} {board : Nat} (f : Nat)
    (h : lookupM br.memo br.drawn.s = none) (h5 : popcount board ≠ 5) :
    branch (f + 1) br board =
      (let t := branchGo (branch f) (List.range 52) (F.num 0) br board
       let pb := F.divN t.1 (52 - t.2.1.drawn.length)
       (pb, ⟨t.2.1.game, t.2.1.hero, t.2.1.drawn, t.2.1.board,
         insertM t.2.1.memo t.2.1.drawn.s pb⟩)) := by
  rw [branch_succ, h]; simp [h5]

theorem branchGo_nil (next : Brancher → Nat → F × Brancher) (pb : F)
    (br : Brancher) (board : Nat) :
    branchGo next [] pb br board = (pb, br, board) := rfl

theorem branchGo_cons_skip {next : Brancher → Nat → F × Brancher} {i : Nat}
    {br : Brancher} (rest : List Nat) (pb : F) (board : Nat)
    (h : br.drawn.contains i = true) :
    branchGo next (i :: rest) pb br board = branchGo next rest pb br board := by
  rw [branchGo]; simp [h]

theorem branchGo_cons_step {next : Brancher → Nat → F × Brancher} {i : Nat}
    {br : Brancher} (rest : List Nat) (pb : F) (board : Nat)
    (h : br.drawn.contains i = false) :
    branchGo next (i :: rest) pb br board =
      (let a := add_to_end_of_board br i board
       let t := next a.1 a.2
       let r := remove_from_end_of_board t.2 i a.2
       branchGo next rest (F.add pb t.1) r.1 r.2) := by
  rw [branchGo]; simp [h]

theorem beatsAllGo_length (heroPos board : Nat) (hr : Rank) (hk : Nat) :
    ∀ (i : Nat) (hs : List Hand),
      (beatsAllGo heroPos board hr hk i hs).2.length = hs.length := by
  intro i hs
  induction hs generalizing i with
  | nil => rfl
  | cons h rest ih =>
    rw [beatsAllGo]
    split
    · simp [ih]
    · split
      · simp [ih]
      · simp

/-- Fields of the brancher state that every search step preserves. -/
def Pres (next : Brancher → Nat → F × Brancher) : Prop :=
  ∀ br b, (next br b).2.drawn = br.drawn ∧
    (next br b).2.game.hero_pos = br.game.hero_pos ∧
    (next br b).2.game.hands.length = br.game.hands.length ∧
    (next br b).2.board = br.board

theorem terminalEval_pres (br : Brancher) (board : Nat) :
    (terminalEval br board).2.drawn = br.drawn ∧
    (terminalEval br board).2.game.hero_pos = br.game.hero_pos ∧
    (terminalEval br board).2.game.hands.length = br.game.hands.length ∧
    (terminalEval br board).2.board = br.board := by
  refine ⟨rfl, rfl, ?_, rfl⟩
  simp [terminalEval, beatsAllGo_length]

theorem branchGo_pres {next : Brancher → Nat → F × Brancher} (hnext : Pres next)
    (l : List Nat) :
    ∀ (pb : F) (br : Brancher) (board : Nat),
      (branchGo next l pb br board).2.1.drawn = br.drawn ∧
      (branchGo next l pb br board).2.1.game.hero_pos = br.game.hero_pos ∧
      (branchGo next l pb br board).2.1.game.hands.length = br.game.hands.length ∧
      (branchGo next l pb br board).2.1.board = br.board := by
  induction l with
  | nil => intro pb br board; exact ⟨rfl, rfl, rfl, rfl⟩
  | cons i rest ih =>
    intro pb br board
    cases hc : br.drawn.contains i with
    | true => rw [branchGo_cons_skip rest pb board hc]; exact ih pb br board
    | false =>
      rw [branchGo_cons_step rest pb board hc]
      have ha : (add_to_end_of_board br i board).1.drawn = br.drawn.add i := rfl
      obtain ⟨hd, hp, hh, hb⟩ :=
        hnext (add_to_end_of_board br i board).1 (add_to_end_of_board br i board).2
      obtain ⟨gd, gp, gh, gb⟩ := ih
        (F.add pb (next (add_to_end_of_board br i board).1 (add_to_end_of_board br i board).2).1)
        (remove_from_end_of_board
          (next (add_to_end_of_board br i board).1 (add_to_end_of_board br i board).2).2 i
          (add_to_end_of_board br i board).2).1
        (remove_from_end_of_board
          (next (add_to_end_of_board br i board).1 (add_to_end_of_board br i board).2).2 i
          (add_to_end_of_board br i board).2).2
      refine ⟨?_, ?_, ?_, ?_⟩
      · rw [gd]
        show ((next _ _).2.drawn.remove i) = br.drawn
        rw [hd, ha, add_remove_of_not_contains hc]
      · rw [gp]; exact hp
      · rw [gh]; exact hh
      · rw [gb]; exact hb

theorem branch_pres : ∀ fuel : Nat, Pres (branch fuel) := by
  intro fuel
  induction fuel with
  | zero =>
    intro br b
    obtain ⟨t1, t2, t3, t4⟩ := terminalEval_pres br b
    refine ⟨?_, ?_, ?_, ?_⟩
    all_goals
      rw [branch_zero]
      cases hl : lookupM br.memo br.drawn.s with
      | some v => simp [hl]
      | none =>
        simp only [hl]
        by_cases h5 : popcount b = 5
        · simp [h5, t1, t2, t3, t4]
        · simp [h5]
  | succ f ih =>
    intro br b
    obtain ⟨t1, t2, t3, t4⟩ := terminalEval_pres br b
    obtain ⟨g1, g2, g3, g4⟩ := branchGo_pres ih (List.range 52) (F.num 0) br b
    refine ⟨?_, ?_, ?_, ?_⟩
    all_goals
      rw [branch_succ]
      cases hl : lookupM br.memo br.drawn.s with
      | some v => simp [hl]
      | none =>
        simp only [hl]
        by_cases h5 : popcount b = 5
        · simp [h5, t1, t2, t3, t4]
        · simp [h5, g1, g2, g3, g4]

end PokerOdds

namespace PokerOdds

theorem BitSet_add_s {b : BitSet} {i : Nat} (h : b.contains i = false) :
    (b.add i).s = b.s ||| (1 <<< i) := by
  simp [BitSet.add, h]

theorem BitSet_add_length {b : BitSet} {i : Nat} (h : b.contains i = false) :
    (b.add i).length = b.length + 1 := by
  simp [BitSet.add, h]

/-- When every board bit is drawn, the loop hands the board back unchanged
(backtracking restores it before each next candidate). -/
theorem branchGo_board_restore {next : Brancher → Nat → F × Brancher}
    (hnext : Pres next) (l : List Nat) :
    ∀ (pb : F) (br : Brancher) (board : Nat),
      (∀ j, board.testBit j = true → br.drawn.s.testBit j = true) →
      (branchGo next l pb br board).2.2 = board := by
  induction l with
  | nil => intro pb br board _; rfl
  | cons i rest ih =>
    intro pb br board hsub
    cases hc : br.drawn.contains i with
    | true => rw [branchGo_cons_skip rest pb board hc]; exact ih pb br board hsub
    | false =>
      rw [branchGo_cons_step rest pb board hc]
      have hbi : board.testBit i = false := by
        cases hbit : board.testBit i with
        | false => rfl
        | true =>
          have := hsub i hbit
          rw [contains_eq_testBit] at hc
          rw [hc] at this
          exact absurd this (by simp)
      have hb1 : board ||| (1 <<< i) = board + 2 ^ i := by
        rw [one_shiftLeft_eq]
        exact lor_two_pow_of_testBit_eq_false hbi
      have hrestore : (board ||| (1 <<< i)) - (1 <<< i) = board := by
        rw [hb1, one_shiftLeft_eq]
        omega
      have hdr : ∀ t2 : Brancher, t2.drawn = br.drawn.add i →
          (t2.drawn.remove i) = br.drawn := by
        intro t2 ht2
        rw [ht2, add_remove_of_not_contains hc]
      obtain ⟨hd, _, _, _⟩ :=
        hnext (add_to_end_of_board br i board).1 (add_to_end_of_board br i board).2
      show (branchGo next rest _
        ⟨_, _, (next (add_to_end_of_board br i board).1 (add_to_end_of_board br i board).2).2.drawn.remove i, _, _⟩
        ((board ||| (1 <<< i)) - (1 <<< i))).2.2 = board
      rw [hrestore]
      apply ih
      intro j hj
      have : (next (add_to_end_of_board br i board).1
          (add_to_end_of_board br i board).2).2.drawn.remove i = br.drawn := hdr _ hd
      rw [this]
      exact hsub j hj

/-- The list of child values produced by the backtracking loop, in loop
order, with the brancher state threaded exactly as `branchGo` threads it. -/
def childVals (next : Brancher → Nat → F × Brancher) :
    List Nat → Brancher → Nat → List F
  | [], _, _ => []
  | i :: rest, br, board =>
    if br.drawn.contains i then childVals next rest br board
    else
      let a := add_to_end_of_board br i board
      let t := next a.1 a.2
      let r := remove_from_end_of_board t.2 i a.2
      t.1 :: childVals next rest r.1 r.2

theorem branchGo_fst_eq_childVals (next : Brancher → Nat → F × Brancher)
    (l : List Nat) :
    ∀ (pb : F) (br : Brancher) (board : Nat),
      (branchGo next l pb br board).1 = (childVals next l br board).foldl F.add pb := by
  induction l with
  | nil => intro pb br board; rfl
  | cons i rest ih =>
    intro pb br board
    cases hc : br.drawn.contains i with
    | true =>
      rw [branchGo_cons_skip rest pb board hc]
      rw [childVals]
      simp only [hc, if_pos rfl]
      exact ih pb br board
    | false =>
      rw [branchGo_cons_step rest pb board hc]
      rw [childVals]
      simp only [hc, Bool.false_eq_true, if_neg]
      exact ih _ _ _

/-- The loop visits one child per undrawn card in its index list. -/
theorem childVals_cons_skip {next : Brancher → Nat → F × Brancher} {i : Nat}
    {br : Brancher} (rest : List Nat) (board : Nat)
    (h : br.drawn.contains i = true) :
    childVals next (i :: rest) br board = childVals next rest br board := by
  rw [childVals]; simp [h]

theorem childVals_cons_step {next : Brancher → Nat → F × Brancher} {i : Nat}
    {br : Brancher} (rest : List Nat) (board : Nat)
    (h : br.drawn.contains i = false) :
    childVals next (i :: rest) br board =
      (let a := add_to_end_of_board br i board
       let t := next a.1 a.2
       let r := remove_from_end_of_board t.2 i a.2
       t.1 :: childVals next rest r.1 r.2) := by
  rw [childVals]; simp [h]

theorem childVals_length {next : Brancher → Nat → F × Brancher}
    (hnext : Pres next) (l : List Nat) :
    ∀ (br : Brancher) (board : Nat),
      (childVals next l br board).length =
        l.countP (fun i => !(br.drawn.contains i)) := by
  induction l with
  | nil => intro br board; rfl
  | cons i rest ih =>
    intro br board
    cases hc : br.drawn.contains i with
    | true =>
      rw [childVals_cons_skip rest board hc, List.countP_cons, ih br board]
      simp [hc]
    | false =>
      rw [childVals_cons_step rest board hc]
      obtain ⟨hd, _, _, _⟩ :=
        hnext (add_to_end_of_board br i board).1 (add_to_end_of_board br i board).2
      have hr : (remove_from_end_of_board
          (next (add_to_end_of_board br i board).1 (add_to_end_of_board br i board).2).2 i
          (add_to_end_of_board br i board).2).1.drawn = br.drawn := by
        show (next (add_to_end_of_board br i board).1
          (add_to_end_of_board br i board).2).2.drawn.remove i = br.drawn
        rw [hd]
        exact add_remove_of_not_contains hc
      show ((next (add_to_end_of_board br i board).1
          (add_to_end_of_board br i board).2).1 :: childVals next rest
            (remove_from_end_of_board
              (next (add_to_end_of_board br i board).1 (add_to_end_of_board br i board).2).2 i
              (add_to_end_of_board br i board).2).1
            (remove_from_end_of_board
              (next (add_to_end_of_board br i board).1 (add_to_end_of_board br i board).2).2 i
              (add_to_end_of_board br i board).2).2).length = _
      rw [List.length_cons, List.countP_cons, ih _ _]
      have hcongr : List.countP (fun j => !((remove_from_end_of_board
            (next (add_to_end_of_board br i board).1 (add_to_end_of_board br i board).2).2 i
            (add_to_end_of_board br i board).2).1.drawn.contains j)) rest =
          List.countP (fun j => !(br.drawn.contains j)) rest := by
        apply List.countP_congr
        intro x _
        rw [hr]
      rw [hcongr]
      simp [hc]

/-- The per-worker partial sums of `branch_parallel`, in worker order,
threading the shared memo from one worker to the next. -/
def chunkSums (fuel : Nat) (br : Brancher) :
    List (Nat × Nat) → List (Nat × F) → List F
  | [], _ => []
  | c :: rest, memo =>
    let w := workerRun fuel br memo c
    w.1 :: chunkSums fuel br rest w.2

theorem parallel_fold_eq_chunkSums (fuel : Nat) (br : Brancher) :
    ∀ (cs : List (Nat × Nat)) (a0 : F) (m0 : List (Nat × F)),
      (cs.foldl (fun acc c =>
        let w := workerRun fuel br acc.2 c
        (F.add acc.1 w.1, w.2)) (a0, m0)).1 =
      (chunkSums fuel br cs m0).foldl F.add a0 := by
  intro cs
  induction cs with
  | nil => intro a0 m0; rfl
  | cons c rest ih =>
    intro a0 m0
    rw [List.foldl_cons, chunkSums]
    exact ih _ _

/-- `branch_parallel` is the divided sum of the per-worker partial sums. -/
theorem branch_parallel_fst (fuel : Nat) (br : Brancher) (nthreads : Nat) :
    (branch_parallel fuel br nthreads).1 =
      F.divN ((chunkSums fuel br (chunksFor nthreads) br.memo).foldl F.add (F.num 0))
        (52 - br.drawn.length) := by
  rw [branch_parallel]
  rw [parallel_fold_eq_chunkSums]

end PokerOdds

namespace PokerOdds

/-! ## Claim C2 — the hand memo caches the rank only -/

/-- `Hand::rank` on a cached key returns the cached rank and leaves the
hand — in particular its `kicker` field — exactly as it was; nothing about
the key's original kicker is restored. -/
theorem rank_cached_returns_rank_only (h : Hand) (board : Nat) (r : Rank)
    (hmem : lookupM h.memo (h.hole_b ||| board) = some r) :
    h.rank board = (r, h) := by
  rw [Hand.rank]
  simp [hmem]

/-- Witness for `rank_cached_returns_rank_only`. -/
theorem rank_cached_returns_rank_only_witness :
    Hand.rank ⟨Card.new 14 0, Card.new 14 3, (1 <<< 48) ||| (1 <<< 51),
        [(((1 <<< 48) ||| (1 <<< 51)) ||| (1 <<< 0), Rank.Pair)], 7⟩ (1 <<< 0) =
      (Rank.Pair, ⟨Card.new 14 0, Card.new 14 3, (1 <<< 48) ||| (1 <<< 51),
        [(((1 <<< 48) ||| (1 <<< 51)) ||| (1 <<< 0), Rank.Pair)], 7⟩) :=
  rank_cached_returns_rank_only _ _ _ (by decide)

/-- The first board evaluated: `2c 7h 8s 9d Jh`. -/
def boardC2a : Nat := (1 <<< 0) ||| (1 <<< 21) ||| (1 <<< 26) ||| (1 <<< 31) ||| (1 <<< 37)

/-- The second board evaluated: `2c 7h 8s Td Qh`. -/
def boardC2b : Nat := (1 <<< 0) ||| (1 <<< 21) ||| (1 <<< 26) ||| (1 <<< 35) ||| (1 <<< 41)

/-- A fresh pocket-aces hand (`Ac Ad`). -/
def handAA : Hand := Hand.new (Card.new 14 0) (Card.new 14 3)

/-- Counterexample to C2: rank `Ac Ad` on board `2c7h8s9dJh`
(kicker 131008), then on `2c7h8sTdQh` (kicker 131109), then again on the
first board.  The third call is a memo hit: it returns the cached rank but
the observable kicker stays 131109 — not the 131008 computed when that key
was first evaluated. -/
theorem c2_kicker_not_restored :
    ((handAA.rank boardC2a).2.rank boardC2b).2.rank boardC2a
        = (Rank.Pair, (((handAA.rank boardC2a).2.rank boardC2b).2)) ∧
    (handAA.rank boardC2a).2.kicker = 131008 ∧
    (((handAA.rank boardC2a).2.rank boardC2b).2.rank boardC2a).2.kicker = 131109 ∧
    ¬ ((((handAA.rank boardC2a).2.rank boardC2b).2.rank boardC2a).2.kicker
        = (handAA.rank boardC2a).2.kicker) := by
  refine ⟨by decide, by decide, by decide, by decide⟩

/-! ## Claim C4 — the Pair kicker keeps only two singleton kickers -/

/-- The Pair-classification kicker of `is_pair_simd` is a function of the
pair-block bitmask and the top two singleton lanes alone; any card set
agreeing on those (in particular one differing only in the third-highest
singleton) produces the identical result. -/
theorem pair_kicker_ignores_third_singleton (c1 c2 : Nat)
    (h2 : eqCountMask c1 2 = eqCountMask c2 2)
    (hd2 : bitlen (eqCountMask c1 1 ^^^ (1 <<< (bitlen (eqCountMask c1 1) - 1)))
        = bitlen (eqCountMask c2 1 ^^^ (1 <<< (bitlen (eqCountMask c2 1) - 1))))
    (hd1 : bitlen (eqCountMask c1 1) = bitlen (eqCountMask c2 1)) :
    is_pair_simd c1 = is_pair_simd c2 := by
  simp only [is_pair_simd]
  rw [hd2, hd1, h2]

/-- Witness for `pair_kicker_ignores_third_singleton`: `Ac Ad` with boards
`Kh Qs Jh 8c 7d` and `Kh Qs 9h 8c 7d` agree on the pair block and the top
two singletons but differ in the third singleton (J vs 9). -/
theorem pair_kicker_ignores_third_singleton_witness :
    is_pair_simd ((1 <<< 48) ||| (1 <<< 51) ||| (1 <<< 45) ||| (1 <<< 42)
        ||| (1 <<< 37) ||| (1 <<< 24) ||| (1 <<< 23))
      = is_pair_simd ((1 <<< 48) ||| (1 <<< 51) ||| (1 <<< 45) ||| (1 <<< 42)
        ||| (1 <<< 29) ||| (1 <<< 24) ||| (1 <<< 23)) :=
  pair_kicker_ignores_third_singleton _ _ (by decide) (by decide) (by decide)

/-- Counterexample to C4: two 7-card Pair hands (`Ac Ad Kh Qs Jh 8c 7d`
and `Ac Ad Kh Qs 9h 8c 7d`) with the same pair (aces) and the same top two
singletons (K, Q) but different third singletons (J vs 9).  The claimed
encoding `pair*100^3 + k1*100^2 + k2*100 + k3` would distinguish them; the
evaluator instead gives both the kicker `131211` (pair lane 13, singleton
lanes 12 and 11 — only two singleton kickers), so they compare equal. -/
theorem c4_pair_third_singleton_collides :
    rankOf ((1 <<< 48) ||| (1 <<< 51) ||| (1 <<< 45) ||| (1 <<< 42)
        ||| (1 <<< 37) ||| (1 <<< 24) ||| (1 <<< 23)) = (Rank.Pair, 131211) ∧
    rankOf ((1 <<< 48) ||| (1 <<< 51) ||| (1 <<< 45) ||| (1 <<< 42)
        ||| (1 <<< 29) ||| (1 <<< 24) ||| (1 <<< 23)) = (Rank.Pair, 131211) ∧
    ¬ ((1 <<< 48) ||| (1 <<< 51) ||| (1 <<< 45) ||| (1 <<< 42)
        ||| (1 <<< 37) ||| (1 <<< 24) ||| (1 <<< 23) : Nat)
      = ((1 <<< 48) ||| (1 <<< 51) ||| (1 <<< 45) ||| (1 <<< 42)
        ||| (1 <<< 29) ||| (1 <<< 24) ||| (1 <<< 23)) := by
  refine ⟨by decide, by decide, by decide⟩

/-! ## Claim C5 — SIMD vs scalar straight flush -/

/-- Counterexample to C5: on the king-high straight flush in clubs
(`9c Tc Jc Qc Kc` plus `2h 3d`), the scalar `is_straight_flush` writes
kicker 13 while `is_straight_flush_simd` writes kicker 9: both report the
hand, but the kicker values are not bit-exact. -/
theorem c5_straight_flush_kickers_differ :
    is_straight_flush ((1 <<< 28) ||| (1 <<< 32) ||| (1 <<< 36) ||| (1 <<< 40)
        ||| (1 <<< 44) ||| (1 <<< 1) ||| (1 <<< 7)) = some 13 ∧
    is_straight_flush_simd ((1 <<< 28) ||| (1 <<< 32) ||| (1 <<< 36) ||| (1 <<< 40)
        ||| (1 <<< 44) ||| (1 <<< 1) ||| (1 <<< 7)) = some 9 := by
  refine ⟨by decide, by decide⟩

end PokerOdds

namespace PokerOdds

/-! ## Claim C3 — the shared memo ignores the seat assignment -/

/-- `Solver::solve` on an engine whose memo already holds the drawn-set
key of the parsed position returns that cached value unchanged — whatever
hands (in particular, whichever seat order) produced the cache entry. -/
theorem solve_returns_cached (memo : List (Nat × F)) (hands : List (List Char))
    (bd : List Char) (hs : List Hand) (board : Nat) (br : Brancher) (v : F)
    (h1 : parseHands hands = some hs) (h2 : parseBoard bd = some board)
    (h3 : Brancher.new ⟨0, hs⟩ board memo = some br)
    (h4 : lookupM memo br.drawn.s = some v) :
    Solver.solve memo hands bd = some (v, memo) := by
  have hbm : br.memo = memo := by
    rw [Brancher.new] at h3
    cases hh : (⟨0, hs⟩ : Game).hands[(⟨0, hs⟩ : Game).hero_pos]? with
    | none => rw [hh] at h3; cases h3
    | some hero =>
      rw [hh] at h3
      simp only [Option.some.injEq] at h3
      rw [← h3]
  rw [Solver.solve]
  simp only [h1, h2, h3]
  rw [compute_equity, hbm]
  simp only [h4]

/-- The drawn-set mask of `Ac Ad` vs `Kc Kd` on board `2c 7h 8s 9d Jh`. -/
def drawnAKb : Nat :=
  (1 <<< 0) ||| (1 <<< 21) ||| (1 <<< 26) ||| (1 <<< 31) ||| (1 <<< 37)
    ||| (1 <<< 44) ||| (1 <<< 47) ||| (1 <<< 48) ||| (1 <<< 51)

/-- Witness for `solve_returns_cached`. -/
theorem solve_returns_cached_witness :
    Solver.solve [(drawnAKb, F.num 1)]
      [['K','c','K','d'], ['A','c','A','d']] ['2','c','7','h','8','s','9','d','J','h']
      = some (F.num 1, [(drawnAKb, F.num 1)]) :=
  solve_returns_cached [(drawnAKb, F.num 1)] _ _
    [Hand.new (Card.new 13 0) (Card.new 13 3), Hand.new (Card.new 14 0) (Card.new 14 3)]
    boardC2a
    ⟨⟨0, [Hand.new (Card.new 13 0) (Card.new 13 3), Hand.new (Card.new 14 0) (Card.new 14 3)]⟩,
      Hand.new (Card.new 13 0) (Card.new 13 3), ⟨drawnAKb, 9⟩, boardC2a,
      [(drawnAKb, F.num 1)]⟩
    (F.num 1) (by decide) (by decide) (by decide) (by decide)

/-- Counterexample to C3: on one engine, solving `[AcAd, KcKd]` on the
complete board `2c7h8s9dJh` stores 1.0 under the drawn-set key; solving
the seat-swapped `[KcKd, AcAd]` (correct equity 0.0, second conjunct, on
a fresh engine) on the same engine then hits that entry and returns 1.0:
equity is not a pure function of the drawn-card bitmask. -/
theorem c3_swapped_seats_get_stale_value :
    (Solver.solve [] [['A','c','A','d'], ['K','c','K','d']]
        ['2','c','7','h','8','s','9','d','J','h']).map Prod.fst = some (F.num 1) ∧
    (Solver.solve [] [['K','c','K','d'], ['A','c','A','d']]
        ['2','c','7','h','8','s','9','d','J','h']).map Prod.fst = some (F.num 0) ∧
    ((Solver.solve [] [['A','c','A','d'], ['K','c','K','d']]
        ['2','c','7','h','8','s','9','d','J','h']).bind
      (fun t => Solver.solve t.2 [['K','c','K','d'], ['A','c','A','d']]
        ['2','c','7','h','8','s','9','d','J','h'])).map Prod.fst = some (F.num 1) := by
  refine ⟨by decide, by decide, by decide⟩

/-! ## Claim C9 — which malformed lengths are rejected -/

theorem hand_from_string_short : ∀ (s : List Char), s.length < 4 →
    Hand.from_string s = none := by
  intro s h
  match s with
  | [] => rfl
  | [a] => rfl
  | [a, b] =>
    unfold Hand.from_string
    rw [if_neg (by simp)]
    rcases hx : Card.from_string ([a, b].take 2) with _ | c <;> rfl
  | [a, b, c] =>
    unfold Hand.from_string
    rw [if_neg (by simp)]
    rcases hx : Card.from_string ([a, b, c].take 2) with _ | c' <;> rfl
  | a :: b :: c :: d :: rest => exact absurd h (by simp)

theorem parseHands_mem_none {hands : List (List Char)} {s : List Char}
    (hmem : s ∈ hands) (hnone : Hand.from_string s = none) :
    parseHands hands = none := by
  induction hands with
  | nil => cases hmem
  | cons t rest ih =>
    rw [parseHands]
    rcases List.mem_cons.mp hmem with rfl | hm
    · rw [hnone]
    · rw [ih hm]
      cases Hand.from_string t <;> rfl

theorem foldl_boardStep_none : ∀ (cs : List (List Char)),
    cs.foldl boardStep none = none := by
  intro cs
  induction cs with
  | nil => rfl
  | cons c rest ih =>
    rw [List.foldl_cons]
    have hstep : boardStep none c = none := rfl
    rw [hstep, ih]

theorem chunks2_foldl_odd : ∀ (bd : List Char), bd.length % 2 = 1 →
    ∀ acc, (chunks2 bd).foldl boardStep acc = none := by
  intro bd
  induction bd using chunks2.induct with
  | case1 => intro h; simp at h
  | case2 a =>
    intro _ acc
    cases acc with
    | none => rfl
    | some m => rfl
  | case3 a b r ih =>
    intro h acc
    have hr : r.length % 2 = 1 := by
      simp only [List.length_cons] at h
      omega
    show (chunks2 r).foldl boardStep (boardStep acc [a, b]) = none
    exact ih hr _

theorem parseBoard_odd {bd : List Char} (h : bd.length % 2 = 1) :
    parseBoard bd = none :=
  chunks2_foldl_odd bd h (some 0)

/-- `Solver::solve` fails on every hole-card string shorter than four
characters (the indexing into `Card::from_string` panics) and on every
board string with an odd number of characters (the trailing chunk has one
character); longer hole strings and out-of-range board card counts are
not checked (see the counterexample). -/
theorem solve_rejects_short_and_odd :
    (∀ (memo : List (Nat × F)) (hands : List (List Char)) (bd s : List Char),
      s ∈ hands → s.length < 4 → Solver.solve memo hands bd = none) ∧
    (∀ (memo : List (Nat × F)) (hands : List (List Char)) (bd : List Char),
      bd.length % 2 = 1 → Solver.solve memo hands bd = none) := by
  constructor
  · intro memo hands bd s hmem hlen
    rw [Solver.solve, parseHands_mem_none hmem (hand_from_string_short s hlen)]
  · intro memo hands bd hodd
    rw [Solver.solve]
    cases hph : parseHands hands with
    | none => rfl
    | some hs => rw [parseBoard_odd hodd]

/-- Witness for `solve_rejects_short_and_odd`. -/
theorem solve_rejects_short_and_odd_witness :
    Solver.solve [] [['A','c','A']] ['2','c'] = none ∧
    Solver.solve [] [['A','c','A','d']] ['2','c','7'] = none :=
  ⟨solve_rejects_short_and_odd.1 [] _ ['2','c'] ['A','c','A'] (by decide) (by decide),
   solve_rejects_short_and_odd.2 [] [['A','c','A','d']] _ (by decide)⟩

/-- Counterexample to C9: a five-character hole-card string is **not**
rejected — `"AcAdX"` parses as `Ac Ad` with the trailing character
ignored, and the solve completes normally. -/
theorem c9_five_char_hole_accepted :
    (['A','c','A','d','X'] : List Char).length = 5 ∧
    (Solver.solve [] [['A','c','A','d','X'], ['K','c','K','d']]
        ['2','c','7','h','8','s','9','d','J','h']).map Prod.fst = some (F.num 1) := by
  refine ⟨by decide, by decide⟩

end PokerOdds

namespace PokerOdds

/-! ## Claim C1 — the terminal showdown is the lexicographic comparison -/

/-- On a fresh hand (empty memo, kicker 0), `Hand::rank` observes exactly
the specification pair `rankOf` of the 7-card key. -/
theorem hand_rank_fresh (h : Hand) (board : Nat) (hm : h.memo = [])
    (hk : h.kicker = 0) :
    (h.rank board).1 = (rankOf (h.hole_b ||| board)).1 ∧
    (h.rank board).2.kicker = (rankOf (h.hole_b ||| board)).2 := by
  rw [Hand.rank, hm]
  simp only [lookupM, rankOf, hk]
  exact ⟨by trivial, by trivial⟩

/-- The Rust comparison `hero_rank > v || (hero_rank == v && hero_kicker >
hand.kicker)` is the lexicographic strict order on (rank, kicker) pairs. -/
theorem beats_cond_iff (p : Rank × Nat) (hr : Rank) (hk : Nat) :
    (decide (p.1.val < hr.val) || (decide (p.1 = hr) && decide (p.2 < hk))) = true
      ↔ pairLexLt p (hr, hk) := by
  simp [pairLexLt]

theorem beatsAllGo_iff (hp board : Nat) (hr : Rank) (hk : Nat) :
    ∀ (hs : List Hand) (j : Nat), (∀ h ∈ hs, h.memo = [] ∧ h.kicker = 0) →
      ((beatsAllGo hp board hr hk j hs).1 = true ↔
        ∀ i (hlt : i < hs.length), j + i ≠ hp →
          pairLexLt (rankOf ((hs.get ⟨i, hlt⟩).hole_b ||| board)) (hr, hk)) := by
  intro hs
  induction hs with
  | nil =>
    intro j _
    constructor
    · intro _ i hlt _
      exact absurd hlt (by simp)
    · intro _; rfl
  | cons h rest ih =>
    intro j hfresh
    have hfh := hfresh h (by simp)
    have hfr : ∀ h' ∈ rest, h'.memo = [] ∧ h'.kicker = 0 := by
      intro h' hm; exact hfresh h' (by simp [hm])
    obtain ⟨hr1, hr2⟩ := hand_rank_fresh h board hfh.1 hfh.2
    rw [beatsAllGo]
    by_cases hj : j = hp
    · rw [if_pos hj]
      show (beatsAllGo hp board hr hk (j + 1) rest).1 = true ↔ _
      rw [ih (j + 1) hfr]
      constructor
      · intro hall i hlt hne
        cases i with
        | zero => exact absurd hj (by omega)
        | succ i' =>
          have := hall i' (by simpa using hlt) (by omega)
          simpa using this
      · intro hall i hlt hne
        have := hall (i + 1) (by simpa using hlt) (by omega)
        simpa using this
    · rw [if_neg hj]
      by_cases hcond : pairLexLt (rankOf (h.hole_b ||| board)) (hr, hk)
      · have hcb : (decide ((h.rank board).1.val < hr.val)
            || (decide ((h.rank board).1 = hr) && decide ((h.rank board).2.kicker < hk))) = true := by
          rw [hr1, hr2]
          exact (beats_cond_iff _ hr hk).mpr hcond
        rw [if_pos hcb]
        show (beatsAllGo hp board hr hk (j + 1) rest).1 = true ↔ _
        rw [ih (j + 1) hfr]
        constructor
        · intro hall i hlt hne
          cases i with
          | zero => simpa using hcond
          | succ i' =>
            have := hall i' (by simpa using hlt) (by omega)
            simpa using this
        · intro hall i hlt hne
          have := hall (i + 1) (by simpa using hlt) (by omega)
          simpa using this
      · have hcb : (decide ((h.rank board).1.val < hr.val)
            || (decide ((h.rank board).1 = hr) && decide ((h.rank board).2.kicker < hk))) = false := by
          rw [hr1, hr2]
          rw [Bool.eq_false_iff]
          intro hcontra
          exact hcond ((beats_cond_iff _ hr hk).mp hcontra)
        rw [if_neg (by simp [hcb])]
        show (false = true) ↔ _
        simp only [Bool.false_eq_true, false_iff]
        intro hall
        have := hall 0 (by simp) (by omega)
        simp at this
        exact absurd this hcond

/-- C1: at a terminal board (five board cards), with the position not yet
cached and all hands fresh, `Brancher::branch` returns 1.0 exactly when
the hero's (rank, kicker) pair lexicographically strictly exceeds every
villain's pair (rank first, kicker breaking ties), and 0.0 otherwise — in
particular a tie with any villain gives 0.0. -/
theorem branch_terminal_lex (fuel : Nat) (br : Brancher) (board : Nat)
    (hmiss : lookupM br.memo br.drawn.s = none)
    (h5 : popcount board = 5)
    (hhero : br.hero.memo = [] ∧ br.hero.kicker = 0)
    (hhands : ∀ h ∈ br.game.hands, h.memo = [] ∧ h.kicker = 0) :
    (branch fuel br board).1 =
      if ∀ i (hlt : i < br.game.hands.length), i ≠ br.game.hero_pos →
            pairLexLt (rankOf ((br.game.hands.get ⟨i, hlt⟩).hole_b ||| board))
              (rankOf (br.hero.hole_b ||| board))
      then F.num 1 else F.num 0 := by
  rw [branch_terminal fuel hmiss h5]
  obtain ⟨hfr, hfk⟩ := hand_rank_fresh br.hero board hhero.1 hhero.2
  show (if (beatsAllGo br.game.hero_pos board (br.hero.rank board).1
      ((br.hero.rank board).2.kicker) 0 br.game.hands).1 = true
    then F.num 1 else F.num 0) = _
  rw [hfr, hfk]
  have hiff := beatsAllGo_iff br.game.hero_pos board
    (rankOf (br.hero.hole_b ||| board)).1 (rankOf (br.hero.hole_b ||| board)).2
    br.game.hands 0 hhands
  by_cases hall : ∀ i (hlt : i < br.game.hands.length), i ≠ br.game.hero_pos →
      pairLexLt (rankOf ((br.game.hands.get ⟨i, hlt⟩).hole_b ||| board))
        (rankOf (br.hero.hole_b ||| board))
  · rw [if_pos (hiff.mpr (fun i hlt hne => hall i hlt (by omega))), if_pos hall]
  · rw [if_neg hall, if_neg]
    intro hc
    exact hall (fun i hlt hne => hiff.mp hc i hlt (by omega))

/-- The `Kc Kd` hand, fresh. -/
def handKK : Hand := Hand.new (Card.new 13 0) (Card.new 13 3)

/-- Witness brancher: `Ac Ad` (hero) vs `Kc Kd` on board `2c7h8s9dJh`. -/
def brW : Brancher :=
  ⟨⟨0, [handAA, handKK]⟩, handAA, ⟨drawnAKb, 9⟩, boardC2a, []⟩

/-- Witness for `branch_terminal_lex`: the hero's pair of aces beats the
villain's pair of kings, so the terminal value is 1.0. -/
theorem branch_terminal_lex_witness : (branch 0 brW boardC2a).1 = F.num 1 := by
  rw [branch_terminal_lex 0 brW boardC2a (by decide) (by decide) (by decide)
    (by decide)]
  rw [if_pos (by decide)]

end PokerOdds

namespace PokerOdds

/-! ## Claim C7 — a five-card board gives exactly 0.0 or 1.0 -/

/-- A terminal showdown produces exactly 0.0 or 1.0. -/
theorem terminalEval_val (br : Brancher) (board : Nat) :
    (terminalEval br board).1 = F.num 0 ∨ (terminalEval br board).1 = F.num 1 := by
  have hte : (terminalEval br board).1 =
      if (beatsAllGo br.game.hero_pos board (br.hero.rank board).1
        (br.hero.rank board).2.kicker 0 br.game.hands).1
      then F.num 1 else F.num 0 := rfl
  rw [hte]
  by_cases hb : (beatsAllGo br.game.hero_pos board (br.hero.rank board).1
      (br.hero.rank board).2.kicker 0 br.game.hands).1 = true
  · right; rw [if_pos hb]
  · left; rw [if_neg hb]

/-- C7: a call to the crate entry point `solve` (a fresh engine, and hence
an empty shared memo, per call) whose parsed board has exactly five
distinct cards returns exactly 0.0 or exactly 1.0. -/
theorem solve_terminal_board_zero_or_one (hands : List (List Char)) (bd : List Char)
    (h0 : Hand) (rest : List Hand) (board : Nat)
    (h1 : parseHands hands = some (h0 :: rest)) (h2 : parseBoard bd = some board)
    (h5 : popcount board = 5) :
    ∃ st, solve hands bd = some (F.num 0, st) ∨ solve hands bd = some (F.num 1, st) := by
  rw [solve, Solver.solve]
  simp only [h1, h2]
  simp only [Brancher.new, List.getElem?_cons_zero]
  set brX : Brancher := ⟨⟨0, h0 :: rest⟩, h0,
      ((List.foldl (fun d h => (d.add h.hole0.idx).add h.hole1.idx) BitSet.new
        (h0 :: rest)).add_board board), board, []⟩ with hbrX
  have hmiss : lookupM brX.memo brX.drawn.s = none := rfl
  have hbb : brX.board = board := rfl
  rw [compute_equity]
  simp only [hmiss]
  rw [if_pos (show 4 ≤ popcount brX.board by rw [hbb]; omega)]
  rw [branch_terminal 5 hmiss (show popcount brX.board = 5 from h5)]
  refine ⟨(terminalEval brX brX.board).2.memo, ?_⟩
  rcases terminalEval_val brX brX.board with hv | hv
  · left
    show some ((terminalEval brX brX.board).1, (terminalEval brX brX.board).2.memo) = _
    rw [hv]
  · right
    show some ((terminalEval brX brX.board).1, (terminalEval brX brX.board).2.memo) = _
    rw [hv]

/-- Witness for `solve_terminal_board_zero_or_one`. -/
theorem solve_terminal_board_zero_or_one_witness :
    ∃ st, solve [['A','c','A','d'], ['K','c','K','d']]
        ['2','c','7','h','8','s','9','d','J','h'] = some (F.num 0, st) ∨
      solve [['A','c','A','d'], ['K','c','K','d']]
        ['2','c','7','h','8','s','9','d','J','h'] = some (F.num 1, st) :=
  solve_terminal_board_zero_or_one _ _ handAA [handKK] boardC2a
    (by decide) (by decide) (by decide)

end PokerOdds

namespace PokerOdds

/-! ## Claim C6 — node value is the mean of the child values -/

/-- C6: at a non-terminal, uncached node the value `Brancher::branch`
returns is the sum of the child values (one per card index not in the
drawn set, obtained by adding that card to the board, in loop order with
the state threaded) divided by `52 - drawn.len()`, and the number of such
children is exactly `52 - drawn.len()` — an arithmetic mean; and at a
parallel root the result is the sum of the per-worker partial sums over
their index ranges divided by the number of undrawn cards. -/
theorem branch_value_is_mean (f : Nat) (br : Brancher) (board : Nat)
    (hmiss : lookupM br.memo br.drawn.s = none)
    (hnt : popcount board ≠ 5)
    (hlen : br.drawn.length = popcount br.drawn.s)
    (hs52 : br.drawn.s < 2 ^ 52) :
    ((branch (f + 1) br board).1 =
        F.divN ((childVals (branch f) (List.range 52) br board).foldl F.add (F.num 0))
          (52 - br.drawn.length)
      ∧ (childVals (branch f) (List.range 52) br board).length = 52 - br.drawn.length)
    ∧ ∀ nthreads : Nat,
        (branch_parallel f br nthreads).1 =
          F.divN ((chunkSums f br (chunksFor nthreads) br.memo).foldl F.add (F.num 0))
            (52 - br.drawn.length) := by
  refine ⟨⟨?_, ?_⟩, fun n => branch_parallel_fst f br n⟩
  · rw [branch_nonterminal f hmiss hnt]
    show F.divN (branchGo (branch f) (List.range 52) (F.num 0) br board).1
      (52 - (branchGo (branch f) (List.range 52) (F.num 0) br board).2.1.drawn.length) = _
    rw [branchGo_fst_eq_childVals]
    rw [(branchGo_pres (branch_pres f) (List.range 52) (F.num 0) br board).1]
  · rw [childVals_length (branch_pres f) (List.range 52) br board]
    exact countP_undrawn hlen hs52

/-- Witness state for `branch_value_is_mean`: all cards but index 51 are
drawn, the board holds four cards. -/
def brC6 : Brancher := ⟨⟨0, []⟩, handAA, ⟨2 ^ 51 - 1, 51⟩, 0xF, []⟩

/-- Witness for `branch_value_is_mean`. -/
theorem branch_value_is_mean_witness :
    ((branch 1 brC6 0xF).1 =
        F.divN ((childVals (branch 0) (List.range 52) brC6 0xF).foldl F.add (F.num 0))
          (52 - brC6.drawn.length)
      ∧ (childVals (branch 0) (List.range 52) brC6 0xF).length = 52 - brC6.drawn.length)
    ∧ (branch_parallel 0 brC6 8).1 =
        F.divN ((chunkSums 0 brC6 (chunksFor 8) brC6.memo).foldl F.add (F.num 0))
          (52 - brC6.drawn.length) := by
  have h := branch_value_is_mean 0 brC6 0xF (by decide) (by decide) (by decide) (by decide)
  exact ⟨⟨h.1.1, h.1.2⟩, h.2 8⟩

end PokerOdds

namespace PokerOdds

/-! ## Range invariants of the search (toolkit for claims C8 and C10) -/

theorem lookupM_mem {α : Type} : ∀ (m : List (Nat × α)) (k : Nat) (v : α),
    lookupM m k = some v → (k, v) ∈ m := by
  intro m
  induction m with
  | nil => intro k v h; cases h
  | cons kv rest ih =>
    intro k v h
    obtain ⟨a, b⟩ := kv
    rw [lookupM] at h
    by_cases hk : a = k
    · rw [if_pos hk] at h
      cases h
      rw [← hk]
      exact List.mem_cons_self _ _
    · rw [if_neg hk] at h
      exact List.mem_cons_of_mem _ (ih k v h)

/-- Every cached value is a rational in [0,1]. -/
def MemoRange (m : List (Nat × F)) : Prop :=
  ∀ kv ∈ m, ∃ q : ℚ, kv.2 = F.num q ∧ 0 ≤ q ∧ q ≤ 1

theorem MemoRange_insert {m : List (Nat × F)} {k : Nat} {q : ℚ}
    (hm : MemoRange m) (h0 : 0 ≤ q) (h1 : q ≤ 1) :
    MemoRange (insertM m k (F.num q)) := by
  intro kv hkv
  rcases List.mem_cons.mp hkv with rfl | hmem
  · exact ⟨q, rfl, h0, h1⟩
  · exact hm kv hmem

/-- Range-correctness of a search step, for boards needing at most `d`
more cards. -/
def RangeOK (next : Brancher → Nat → F × Brancher) (d : Nat) : Prop :=
  ∀ br board,
    br.drawn.length = popcount br.drawn.s →
    br.drawn.s < 2 ^ 52 →
    (∀ j, board.testBit j = true → br.drawn.s.testBit j = true) →
    popcount board ≤ 5 →
    5 - popcount board ≤ 52 - br.drawn.length →
    5 - popcount board ≤ d →
    MemoRange br.memo →
    (∃ q, (next br board).1 = F.num q ∧ 0 ≤ q ∧ q ≤ 1) ∧
      MemoRange (next br board).2.memo

/-- Let-free form of the loop step. -/
theorem branchGo_step {next : Brancher → Nat → F × Brancher} {i : Nat}
    {br : Brancher} (rest : List Nat) (pb : F) (board : Nat)
    (h : br.drawn.contains i = false) :
    branchGo next (i :: rest) pb br board =
      branchGo next rest
        (F.add pb (next (add_to_end_of_board br i board).1
          (add_to_end_of_board br i board).2).1)
        (remove_from_end_of_board
          (next (add_to_end_of_board br i board).1 (add_to_end_of_board br i board).2).2 i
          (add_to_end_of_board br i board).2).1
        (remove_from_end_of_board
          (next (add_to_end_of_board br i board).1 (add_to_end_of_board br i board).2).2 i
          (add_to_end_of_board br i board).2).2 := by
  rw [branchGo]; simp [h]

/-- The facts about one undrawn index `i` used by every loop invariant:
the updated drawn set, board, and their bookkeeping. -/
theorem step_facts {br : Brancher} {board i : Nat}
    (hc : br.drawn.contains i = false) (hi52 : i < 52)
    (hlen : br.drawn.length = popcount br.drawn.s)
    (hs52 : br.drawn.s < 2 ^ 52)
    (hsub : ∀ j, board.testBit j = true → br.drawn.s.testBit j = true) :
    (br.drawn.add i).s = br.drawn.s ||| 2 ^ i ∧
    (br.drawn.add i).length = popcount (br.drawn.add i).s ∧
    (br.drawn.add i).s < 2 ^ 52 ∧
    board.testBit i = false ∧
    (board ||| (1 <<< i)) = board ||| 2 ^ i ∧
    popcount (board ||| 2 ^ i) = popcount board + 1 ∧
    (∀ j, (board ||| 2 ^ i).testBit j = true → (br.drawn.add i).s.testBit j = true) ∧
    ((board ||| (1 <<< i)) - (1 <<< i)) = board := by
  have htbi : br.drawn.s.testBit i = false := by
    rw [← contains_eq_testBit]; exact hc
  have hadds : (br.drawn.add i).s = br.drawn.s ||| 2 ^ i := by
    rw [BitSet_add_s hc, one_shiftLeft_eq]
  have hboardbit : board.testBit i = false := by
    cases hb : board.testBit i with
    | false => rfl
    | true =>
      have := hsub i hb
      rw [htbi] at this
      exact absurd this (by simp)
  have hb1 : (board ||| (1 <<< i)) = board ||| 2 ^ i := by rw [one_shiftLeft_eq]
  refine ⟨hadds, ?_, ?_, hboardbit, hb1, ?_, ?_, ?_⟩
  · rw [BitSet_add_length hc, hadds, popcount_lor_two_pow (by omega) htbi, hlen]
  · rw [hadds]
    exact Nat.or_lt_two_pow hs52
      (Nat.pow_lt_pow_right (by omega) hi52)
  · exact popcount_lor_two_pow (by omega) hboardbit
  · intro j hj
    rw [hadds, Nat.testBit_lor]
    rw [Nat.testBit_lor] at hj
    rcases (by simpa using hj : board.testBit j = true ∨ ((2 : Nat) ^ i).testBit j = true)
      with hb | hb
    · rw [hsub j hb]; simp
    · rw [hb]; simp
  · rw [hb1, one_shiftLeft_eq, lor_two_pow_of_testBit_eq_false hboardbit]
    omega

theorem branchGoRange {next : Brancher → Nat → F × Brancher} {d : Nat}
    (hpres : Pres next) (hnext : RangeOK next d) (board : Nat)
    (hb5 : popcount board < 5) (hd : 5 - (popcount board + 1) ≤ d) :
    ∀ (l : List Nat) (p : ℚ) (br : Brancher),
      (∀ i ∈ l, i < 52) →
      br.drawn.length = popcount br.drawn.s →
      br.drawn.s < 2 ^ 52 →
      (∀ j, board.testBit j = true → br.drawn.s.testBit j = true) →
      5 - (popcount board + 1) ≤ 52 - (br.drawn.length + 1) →
      MemoRange br.memo →
      0 ≤ p →
      ∃ p', (branchGo next l (F.num p) br board).1 = F.num p' ∧ 0 ≤ p' ∧
        p' ≤ p + (l.countP (fun i => !(br.drawn.contains i)) : ℚ) ∧
        MemoRange (branchGo next l (F.num p) br board).2.1.memo := by
  intro l
  induction l with
  | nil =>
    intro p br _ _ _ _ _ hmemo h0p
    exact ⟨p, rfl, h0p, by simp, hmemo⟩
  | cons i rest ih =>
    intro p br hl hlen hs52 hsub hroom hmemo h0p
    cases hc : br.drawn.contains i with
    | true =>
      rw [branchGo_cons_skip rest (F.num p) board hc]
      obtain ⟨p', h1, h2, h3, h4⟩ := ih p br (fun j hj => hl j (by simp [hj]))
        hlen hs52 hsub hroom hmemo h0p
      refine ⟨p', h1, h2, ?_, h4⟩
      calc p' ≤ p + (rest.countP (fun i => !(br.drawn.contains i)) : ℚ) := h3
      _ ≤ _ := by rw [List.countP_cons]; simp [hc]
    | false =>
      rw [branchGo_step rest (F.num p) board hc]
      obtain ⟨hadds, hlen1, hs52a, hbbit, hb1eq, hpb1, hsub1, hrestore⟩ :=
        step_facts hc (hl i (by simp)) hlen hs52 hsub
      set A := add_to_end_of_board br i board with hA
      set T := next A.1 A.2 with hT
      set R := remove_from_end_of_board T.2 i A.2 with hR
      have hA1 : A.1 = ⟨br.game, br.hero, br.drawn.add i, br.board, br.memo⟩ := rfl
      have hA2 : A.2 = board ||| (1 <<< i) := rfl
      have hnx := hnext A.1 (A.2)
        (by rw [hA1]; exact hlen1)
        (by rw [hA1]; exact hs52a)
        (by rw [hA1, hA2, hb1eq]; exact hsub1)
        (by rw [hA2, hb1eq, hpb1]; omega)
        (by rw [hA1, hA2, hb1eq, hpb1]
            show 5 - (popcount board + 1) ≤ 52 - (br.drawn.add i).length
            rw [BitSet_add_length hc]
            exact hroom)
        (by rw [hA2, hb1eq, hpb1]; exact hd)
        (by rw [hA1]; exact hmemo)
      obtain ⟨⟨qc, hqc, h0c, h1c⟩, hmemoc⟩ := hnx
      have hTd : T.2.drawn = br.drawn.add i := by
        have h' := (hpres A.1 A.2).1
        rw [← hT] at h'
        rw [h', hA1]
      have hRdrawn : R.1.drawn = br.drawn := by
        rw [hR]
        show T.2.drawn.remove i = br.drawn
        rw [hTd]
        exact add_remove_of_not_contains hc
      have hRmemo : R.1.memo = T.2.memo := rfl
      have hRboard : R.2 = board := by
        rw [hR]
        show A.2 - (1 <<< i) = board
        rw [hA2]
        exact hrestore
      have hsum : F.add (F.num p) T.1 = F.num (p + qc) := by
        rw [hT, hqc]; rfl
      rw [hsum, hRboard]
      obtain ⟨p', h1, h2, h3, h4⟩ := ih (p + qc) R.1
        (fun j hj => hl j (by simp [hj]))
        (by rw [hRdrawn]; exact hlen)
        (by rw [hRdrawn]; exact hs52)
        (by rw [hRdrawn]; exact hsub)
        (by rw [hRdrawn]; exact hroom)
        (by rw [hRmemo]; exact hmemoc)
        (by positivity)
      refine ⟨p', h1, h2, ?_, h4⟩
      have hcount : (rest.countP (fun j => !(R.1.drawn.contains j)))
          = rest.countP (fun j => !(br.drawn.contains j)) := by
        apply List.countP_congr
        intro x _
        rw [hRdrawn]
      rw [hcount] at h3
      calc p' ≤ p + qc + (rest.countP (fun j => !(br.drawn.contains j)) : ℚ) := h3
      _ ≤ p + ((i :: rest).countP (fun j => !(br.drawn.contains j)) : ℚ) := by
        simp only [List.countP_cons, hc]
        push_cast
        simp
        linarith
      _ = _ := rfl

end PokerOdds

namespace PokerOdds

theorem terminalEval_memo (br : Brancher) (board : Nat) :
    (terminalEval br board).2.memo =
      insertM br.memo br.drawn.s (terminalEval br board).1 := rfl

/-- Hit and terminal cases of the range argument, shared by both fuel
cases. -/
theorem branch_base_range {fuel : Nat} {br : Brancher} {board : Nat}
    (hmemo : MemoRange br.memo) (h5 : popcount board = 5) :
    (∃ q, (branch fuel br board).1 = F.num q ∧ 0 ≤ q ∧ q ≤ 1) ∧
      MemoRange (branch fuel br board).2.memo := by
  cases hl : lookupM br.memo br.drawn.s with
  | some v =>
    rw [branch_hit fuel board hl]
    obtain ⟨q, hq, h0, h1⟩ := hmemo _ (lookupM_mem _ _ _ hl)
    exact ⟨⟨q, hq, h0, h1⟩, hmemo⟩
  | none =>
    rw [branch_terminal fuel hl h5]
    constructor
    · rcases terminalEval_val br board with hv | hv
      · exact ⟨0, hv, le_refl 0, by norm_num⟩
      · exact ⟨1, hv, by norm_num, le_refl 1⟩
    · rw [terminalEval_memo]
      rcases terminalEval_val br board with hv | hv
      · rw [hv]; exact MemoRange_insert hmemo le_rfl (by norm_num)
      · rw [hv]; exact MemoRange_insert hmemo (by norm_num) le_rfl

/-- `Brancher::branch` returns a rational in [0,1] and keeps every memo
entry in [0,1], whenever enough undrawn cards and fuel remain. -/
theorem branch_range : ∀ fuel : Nat, RangeOK (branch fuel) fuel := by
  intro fuel
  induction fuel with
  | zero =>
    intro br board hlen hs52 hsub hb5 hroom hd hmemo
    exact branch_base_range hmemo (by omega)
  | succ f ih =>
    intro br board hlen hs52 hsub hb5 hroom hd hmemo
    cases hl : lookupM br.memo br.drawn.s with
    | some v =>
      rw [branch_hit (f + 1) board hl]
      obtain ⟨q, hq, h0, h1⟩ := hmemo _ (lookupM_mem _ _ _ hl)
      exact ⟨⟨q, hq, h0, h1⟩, hmemo⟩
    | none =>
      by_cases h5 : popcount board = 5
      · exact branch_base_range hmemo h5
      · have hlt5 : popcount board < 5 := by omega
        obtain ⟨p', hp1, hp2, hp3, hp4⟩ :=
          branchGoRange (branch_pres f) ih board hlt5 (by omega) (List.range 52) 0 br
            (fun i hi => List.mem_range.mp hi) hlen hs52 hsub (by omega) hmemo le_rfl
        set G := branchGo (branch f) (List.range 52) (F.num 0) br board with hG
        have hGd : G.2.1.drawn = br.drawn :=
          (branchGo_pres (branch_pres f) (List.range 52) (F.num 0) br board).1
        have hval : (branch (f + 1) br board).1 = F.divN G.1 (52 - G.2.1.drawn.length) := by
          simp only [branch_nonterminal f hl h5, hG]
        have hmem : (branch (f + 1) br board).2.memo =
            insertM G.2.1.memo G.2.1.drawn.s (F.divN G.1 (52 - G.2.1.drawn.length)) := by
          simp only [branch_nonterminal f hl h5, hG]
        have hn : 0 < 52 - br.drawn.length := by omega
        have hbound : p' ≤ ((52 - br.drawn.length : Nat) : ℚ) := by
          have hc := countP_undrawn hlen hs52
          rw [hc] at hp3
          simpa using hp3
        have hdiv : F.divN G.1 (52 - G.2.1.drawn.length)
            = F.num (p' / ((52 - br.drawn.length : Nat) : ℚ)) := by
          rw [hGd, hp1]
          simp only [F.divN]
          rw [if_neg (by omega)]
        have h0q : 0 ≤ p' / ((52 - br.drawn.length : Nat) : ℚ) :=
          div_nonneg hp2 (by positivity)
        have h1q : p' / ((52 - br.drawn.length : Nat) : ℚ) ≤ 1 := by
          rw [div_le_one (by exact_mod_cast hn)]
          exact hbound
        constructor
        · exact ⟨p' / ((52 - br.drawn.length : Nat) : ℚ), by rw [hval, hdiv], h0q, h1q⟩
        · rw [hmem, hdiv]
          exact MemoRange_insert hp4 h0q h1q

end PokerOdds

namespace PokerOdds

/-! ## Bounds established by parsing and brancher construction -/

theorem countP_or_and {α : Type} (f g : α → Bool) (l : List α) :
    l.countP (fun x => f x || g x) + l.countP (fun x => f x && g x)
      = l.countP f + l.countP g := by
  induction l with
  | nil => rfl
  | cons a l ih =>
    simp only [List.countP_cons]
    cases hf : f a <;> cases hg : g a <;> simp [hf, hg] <;> omega

theorem popcount_lor_add_land (a b : Nat) :
    popcount (a ||| b) + popcount (a &&& b) = popcount a + popcount b := by
  rw [popcount, popcount, popcount, popcount]
  have h1 : (List.range 64).countP (fun i => (a ||| b).testBit i)
      = (List.range 64).countP (fun i => a.testBit i || b.testBit i) := by
    apply List.countP_congr; intro x _; rw [Nat.testBit_lor]
  have h2 : (List.range 64).countP (fun i => (a &&& b).testBit i)
      = (List.range 64).countP (fun i => a.testBit i && b.testBit i) := by
    apply List.countP_congr; intro x _; rw [Nat.testBit_land]
  rw [h1, h2]
  exact countP_or_and _ _ _

theorem countP_le_of_imp {α : Type} {p q : α → Bool} {l : List α}
    (h : ∀ a ∈ l, p a = true → q a = true) :
    l.countP p ≤ l.countP q := by
  induction l with
  | nil => exact le_rfl
  | cons a l ih =>
    simp only [List.countP_cons]
    have hrest : l.countP p ≤ l.countP q :=
      ih (fun x hx => h x (List.mem_cons_of_mem _ hx))
    cases hp : p a with
    | false => simp; omega
    | true => rw [h a (List.mem_cons_self _ _) hp]; simp; omega

/-- The drawn-set invariant: tracked length is the popcount and the mask
stays in the 52-card range. -/
def BInv (b : BitSet) : Prop := b.length = popcount b.s ∧ b.s < 2 ^ 52

theorem BInv_new : BInv BitSet.new := by
  constructor
  · rfl
  · norm_num [BitSet.new]

theorem BInv_add {b : BitSet} {i : Nat} (hb : BInv b) (hi : i < 52) :
    BInv (b.add i) := by
  cases hc : b.contains i with
  | true => rw [BitSet.add, hc]; simpa using hb
  | false =>
    constructor
    · rw [BitSet_add_length hc, BitSet_add_s hc, one_shiftLeft_eq,
        popcount_lor_two_pow (by omega) (by rw [← contains_eq_testBit]; exact hc), hb.1]
    · rw [BitSet_add_s hc, one_shiftLeft_eq]
      exact Nat.or_lt_two_pow hb.2 (Nat.pow_lt_pow_right (by omega) hi)

theorem BInv_add_board {b : BitSet} {board : Nat} (hb : BInv b)
    (hbd : board < 2 ^ 52) :
    BInv (b.add_board board) ∧
      (∀ j, board.testBit j = true → (b.add_board board).s.testBit j = true) := by
  have hle : popcount (board &&& b.s) ≤ popcount board := by
    rw [popcount, popcount]
    apply countP_le_of_imp
    intro x _ hx
    rw [Nat.testBit_land] at hx
    simp only [Bool.and_eq_true] at hx
    exact hx.1
  have hsum := popcount_lor_add_land b.s board
  have hcomm : b.s &&& board = board &&& b.s := Nat.land_comm _ _
  refine ⟨⟨?_, ?_⟩, ?_⟩
  · show b.length + (popcount board - popcount (board &&& b.s)) = popcount (b.s ||| board)
    rw [hb.1]
    rw [hcomm] at hsum
    omega
  · exact Nat.or_lt_two_pow hb.2 hbd
  · intro j hj
    show (b.s ||| board).testBit j = true
    rw [Nat.testBit_lor, hj]
    simp

theorem valueFromChar_bounds {c : Char} {v : Nat} (h : valueFromChar c = some v) :
    2 ≤ v ∧ v ≤ 14 := by
  rw [valueFromChar] at h
  split_ifs at h <;> (cases h; omega)

theorem suitFromChar_bounds {c : Char} {s : Nat} (h : suitFromChar c = some s) :
    s ≤ 3 := by
  rw [suitFromChar] at h
  split_ifs at h <;> cases h <;> omega

theorem card_idx_lt {cs : List Char} {c : Card} (h : Card.from_string cs = some c) :
    c.idx < 52 := by
  match cs with
  | [] => cases h
  | [a] => cases h
  | a :: b :: r =>
    rw [Card.from_string] at h
    cases hv : valueFromChar a with
    | none => rw [hv] at h; cases h
    | some v =>
      cases hs : suitFromChar b with
      | none => rw [hv, hs] at h; cases h
      | some s =>
        rw [hv, hs] at h
        cases h
        have hvb := valueFromChar_bounds hv
        have hsb := suitFromChar_bounds hs
        show v * 4 - 8 + s < 52
        omega

theorem hand_idx_lt {s : List Char} {h : Hand} (hp : Hand.from_string s = some h) :
    h.hole0.idx < 52 ∧ h.hole1.idx < 52 := by
  by_cases hlen : s.length < 2
  · rw [Hand.from_string, if_pos hlen] at hp
    cases hp
  · cases hc1 : Card.from_string (s.take 2) with
    | none =>
      rw [Hand.from_string, if_neg hlen] at hp
      rw [hc1] at hp
      cases hc2 : Card.from_string (s.drop 2) with
      | none => rw [hc2] at hp; cases hp
      | some c2 => rw [hc2] at hp; cases hp
    | some c1 =>
      rw [Hand.from_string, if_neg hlen] at hp
      cases hc2 : Card.from_string (s.drop 2) with
      | none => rw [hc1, hc2] at hp; cases hp
      | some c2 =>
        rw [hc1, hc2] at hp
        cases hp
        exact ⟨card_idx_lt hc1, card_idx_lt hc2⟩

theorem parseHands_idx_lt : ∀ {hands : List (List Char)} {hs : List Hand},
    parseHands hands = some hs →
    ∀ h ∈ hs, h.hole0.idx < 52 ∧ h.hole1.idx < 52 := by
  intro hands
  induction hands with
  | nil =>
    intro hs hp h hmem
    cases hp
    cases hmem
  | cons t rest ih =>
    intro hs hp h hmem
    rw [parseHands] at hp
    cases ht : Hand.from_string t with
    | none => rw [ht] at hp; cases hp
    | some h0 =>
      cases hr : parseHands rest with
      | none => rw [ht, hr] at hp; cases hp
      | some hs0 =>
        rw [ht, hr] at hp
        cases hp
        rcases List.mem_cons.mp hmem with rfl | hm
        · exact hand_idx_lt ht
        · exact ih hr h hm

theorem boardStep_lt : ∀ {acc : Option Nat} {c : List Char} {m : Nat},
    boardStep acc c = some m → (∀ a, acc = some a → a < 2 ^ 52) → m < 2 ^ 52 := by
  intro acc c m h hacc
  cases acc with
  | none => cases h
  | some a =>
    cases hc : Card.from_string c with
    | none =>
      simp only [boardStep, hc] at h
      cases h
    | some card =>
      simp only [boardStep, hc, Option.some.injEq] at h
      rw [← h, one_shiftLeft_eq]
      exact Nat.or_lt_two_pow (hacc a rfl)
        (Nat.pow_lt_pow_right (by omega) (card_idx_lt hc))

theorem foldl_boardStep_lt : ∀ (cs : List (List Char)) (acc : Option Nat) (b : Nat),
    cs.foldl boardStep acc = some b → (∀ a, acc = some a → a < 2 ^ 52) →
    b < 2 ^ 52 := by
  intro cs
  induction cs with
  | nil =>
    intro acc b h hacc
    exact hacc b h
  | cons c rest ih =>
    intro acc b h hacc
    rw [List.foldl_cons] at h
    apply ih _ _ h
    intro a ha
    exact boardStep_lt ha hacc

theorem parseBoard_lt {bd : List Char} {b : Nat} (h : parseBoard bd = some b) :
    b < 2 ^ 52 := by
  apply foldl_boardStep_lt _ _ _ h
  intro a ha
  cases ha
  norm_num

end PokerOdds

namespace PokerOdds

theorem Brancher_new_fold_inv :
    ∀ (hs : List Hand) (b0 : BitSet), BInv b0 →
      (∀ h ∈ hs, h.hole0.idx < 52 ∧ h.hole1.idx < 52) →
      BInv (hs.foldl (fun d h => (d.add h.hole0.idx).add h.hole1.idx) b0) := by
  intro hs
  induction hs with
  | nil => intro b0 hb _; exact hb
  | cons h rest ih =>
    intro b0 hb hidx
    rw [List.foldl_cons]
    apply ih
    · exact BInv_add (BInv_add hb (hidx h (by simp)).1) (hidx h (by simp)).2
    · intro h' hm; exact hidx h' (by simp [hm])

theorem Brancher_new_inv {game : Game} {board : Nat} {memo : List (Nat × F)}
    {br : Brancher} (h3 : Brancher.new game board memo = some br)
    (hidx : ∀ h ∈ game.hands, h.hole0.idx < 52 ∧ h.hole1.idx < 52)
    (hbd : board < 2 ^ 52) :
    BInv br.drawn ∧ (∀ j, board.testBit j = true → br.drawn.s.testBit j = true) ∧
      br.memo = memo ∧ br.board = board ∧ br.game = game := by
  rw [Brancher.new] at h3
  cases hh : game.hands[game.hero_pos]? with
  | none => rw [hh] at h3; cases h3
  | some hero =>
    rw [hh] at h3
    simp only [Option.some.injEq] at h3
    have hfold := Brancher_new_fold_inv game.hands BitSet.new BInv_new hidx
    obtain ⟨hinv, hsub⟩ := BInv_add_board hfold hbd
    rw [← h3]
    exact ⟨hinv, hsub, rfl, rfl, rfl⟩

theorem chunkFold_range (fuel : Nat) (br : Brancher)
    (hlen : br.drawn.length = popcount br.drawn.s) (hs52 : br.drawn.s < 2 ^ 52)
    (hsub : ∀ j, br.board.testBit j = true → br.drawn.s.testBit j = true)
    (hb5 : popcount br.board < 5)
    (hroom : 5 - (popcount br.board + 1) ≤ 52 - (br.drawn.length + 1))
    (hd : 5 - (popcount br.board + 1) ≤ fuel) :
    ∀ (cs : List (Nat × Nat)) (p : ℚ) (memo : List (Nat × F)),
      (∀ c ∈ cs, ∀ i ∈ List.range' c.1 (c.2 - c.1), i < 52) →
      MemoRange memo → 0 ≤ p →
      ∃ p', (cs.foldl (fun acc c =>
          let w := workerRun fuel br acc.2 c
          (F.add acc.1 w.1, w.2)) (F.num p, memo)).1 = F.num p' ∧ 0 ≤ p' ∧
        p' ≤ p + ((cs.map (fun c =>
          (List.range' c.1 (c.2 - c.1)).countP (fun i => !(br.drawn.contains i)))).sum : ℚ) ∧
        MemoRange (cs.foldl (fun acc c =>
          let w := workerRun fuel br acc.2 c
          (F.add acc.1 w.1, w.2)) (F.num p, memo)).2 := by
  intro cs
  induction cs with
  | nil =>
    intro p memo _ hm h0
    exact ⟨p, rfl, h0, by simp, hm⟩
  | cons c rest ih =>
    intro p memo hcs hm h0
    obtain ⟨qc, hqc1, hqc0, hqcB, hqcM⟩ :=
      branchGoRange (branch_pres fuel) (branch_range fuel) br.board hb5 hd
        (List.range' c.1 (c.2 - c.1)) 0
        ⟨br.game, br.hero, br.drawn, br.board, memo⟩
        (hcs c (by simp)) hlen hs52 hsub hroom hm le_rfl
    have hw1 : (workerRun fuel br memo c).1 =
        (branchGo (branch fuel) (List.range' c.1 (c.2 - c.1)) (F.num 0)
          ⟨br.game, br.hero, br.drawn, br.board, memo⟩ br.board).1 := rfl
    have hw2 : (workerRun fuel br memo c).2 =
        (branchGo (branch fuel) (List.range' c.1 (c.2 - c.1)) (F.num 0)
          ⟨br.game, br.hero, br.drawn, br.board, memo⟩ br.board).2.1.memo := rfl
    rw [List.foldl_cons]
    have hstep : (F.add (F.num p) (workerRun fuel br memo c).1,
        (workerRun fuel br memo c).2) =
        ((F.num (p + qc)), (workerRun fuel br memo c).2) := by
      rw [hw1, hqc1]
      rfl
    rw [hstep]
    obtain ⟨p', h1, h2, h3, h4⟩ := ih (p + qc) (workerRun fuel br memo c).2
      (fun c' hc' => hcs c' (by simp [hc']))
      (by rw [hw2]; exact hqcM)
      (by positivity)
    refine ⟨p', h1, h2, ?_, h4⟩
    have hqcB' : qc ≤ ((List.range' c.1 (c.2 - c.1)).countP
        (fun i => !(br.drawn.contains i)) : ℚ) := by
      have : ((List.range' c.1 (c.2 - c.1)).countP
          (fun i => !((⟨br.game, br.hero, br.drawn, br.board, memo⟩ : Brancher).drawn.contains i)))
          = ((List.range' c.1 (c.2 - c.1)).countP (fun i => !(br.drawn.contains i))) := rfl
      rw [this] at hqcB
      simpa using hqcB
    calc p' ≤ p + qc + ((rest.map (fun c =>
        (List.range' c.1 (c.2 - c.1)).countP (fun i => !(br.drawn.contains i)))).sum : ℚ) := h3
    _ ≤ _ := by
      rw [List.map_cons, List.sum_cons]
      push_cast
      linarith

theorem branch_parallel_range (fuel : Nat) (br : Brancher)
    (hlen : br.drawn.length = popcount br.drawn.s) (hs52 : br.drawn.s < 2 ^ 52)
    (hsub : ∀ j, br.board.testBit j = true → br.drawn.s.testBit j = true)
    (hb5 : popcount br.board < 5)
    (hroom : 5 - (popcount br.board + 1) ≤ 52 - (br.drawn.length + 1))
    (hd : 5 - (popcount br.board + 1) ≤ fuel)
    (hn : 0 < 52 - br.drawn.length)
    (hmemo : MemoRange br.memo) :
    (∃ q, (branch_parallel fuel br 8).1 = F.num q ∧ 0 ≤ q ∧ q ≤ 1) ∧
      MemoRange (branch_parallel fuel br 8).2 := by
  obtain ⟨p', h1, h2, h3, h4⟩ := chunkFold_range fuel br hlen hs52 hsub hb5 hroom hd
    (chunksFor 8) 0 br.memo (by decide) hmemo le_rfl
  have hsumeq : ((chunksFor 8).map (fun c =>
      (List.range' c.1 (c.2 - c.1)).countP (fun i => !(br.drawn.contains i)))).sum
      = (List.range 52).countP (fun i => !(br.drawn.contains i)) := by
    have hflat : ((chunksFor 8).map (fun c => List.range' c.1 (c.2 - c.1))).flatten
        = List.range 52 := by decide
    rw [← hflat, List.countP_flatten, List.map_map]
    rfl
  have hbound : p' ≤ ((52 - br.drawn.length : Nat) : ℚ) := by
    rw [hsumeq, countP_undrawn hlen hs52] at h3
    simpa using h3
  have hval : (branch_parallel fuel br 8).1 =
      F.divN (((chunksFor 8).foldl (fun acc c =>
        let w := workerRun fuel br acc.2 c
        (F.add acc.1 w.1, w.2)) (F.num 0, br.memo)).1) (52 - br.drawn.length) := rfl
  have hmem : (branch_parallel fuel br 8).2 =
      ((chunksFor 8).foldl (fun acc c =>
        let w := workerRun fuel br acc.2 c
        (F.add acc.1 w.1, w.2)) (F.num 0, br.memo)).2 := rfl
  constructor
  · refine ⟨p' / ((52 - br.drawn.length : Nat) : ℚ), ?_, ?_, ?_⟩
    · rw [hval, h1]
      simp only [F.divN]
      rw [if_neg (by omega)]
    · exact div_nonneg h2 (by positivity)
    · rw [div_le_one (by exact_mod_cast hn)]
      exact hbound
  · rw [hmem]
    exact h4

theorem compute_equity_range (fuel : Nat) (br : Brancher)
    (hlen : br.drawn.length = popcount br.drawn.s) (hs52 : br.drawn.s < 2 ^ 52)
    (hsub : ∀ j, br.board.testBit j = true → br.drawn.s.testBit j = true)
    (hb5 : popcount br.board ≤ 5)
    (hroom : 5 - popcount br.board ≤ 52 - br.drawn.length)
    (hd : 5 - popcount br.board ≤ fuel)
    (hmemo : MemoRange br.memo) :
    ∃ q, (compute_equity fuel br).1 = F.num q ∧ 0 ≤ q ∧ q ≤ 1 := by
  rw [compute_equity]
  cases hl : lookupM br.memo br.drawn.s with
  | some v =>
    simp only [hl]
    obtain ⟨q, hq, h0, h1⟩ := hmemo _ (lookupM_mem _ _ _ hl)
    exact ⟨q, hq, h0, h1⟩
  | none =>
    simp only [hl]
    by_cases h4 : 4 ≤ popcount br.board
    · rw [if_pos h4]
      obtain ⟨⟨q, hq, h0, h1⟩, _⟩ :=
        branch_range fuel br br.board hlen hs52 hsub hb5 hroom hd hmemo
      exact ⟨q, hq, h0, h1⟩
    · rw [if_neg h4]
      have hb5' : popcount br.board < 5 := by omega
      obtain ⟨⟨q, hq, h0, h1⟩, _⟩ := branch_parallel_range fuel br hlen hs52 hsub hb5'
        (by omega) (by omega) (by omega) hmemo
      exact ⟨q, hq, h0, h1⟩

/-- C8 (amended): whenever the search never runs out of undrawn cards —
`5 - popcount board ≤ 52 - |drawn|` at the root, which holds for every
game with fewer than 24 seats — `solve` returns a rational in [0, 1]. -/
theorem solve_value_in_range (hands : List (List Char)) (bd : List Char)
    (h0 : Hand) (rest : List Hand) (board : Nat) (br : Brancher)
    (h1 : parseHands hands = some (h0 :: rest))
    (h2 : parseBoard bd = some board)
    (h3 : Brancher.new ⟨0, h0 :: rest⟩ board [] = some br)
    (hb5 : popcount board ≤ 5)
    (hroom : 5 - popcount board ≤ 52 - br.drawn.length) :
    ∃ q st, solve hands bd = some (F.num q, st) ∧ 0 ≤ q ∧ q ≤ 1 := by
  rw [solve, Solver.solve]
  simp only [h1, h2, h3]
  obtain ⟨hbinv, hsub, hmemoeq, hboardeq, _⟩ :=
    Brancher_new_inv h3 (parseHands_idx_lt h1) (parseBoard_lt h2)
  obtain ⟨q, hq, hq0, hq1⟩ := compute_equity_range 5 br hbinv.1 hbinv.2
    (by rw [hboardeq]; exact hsub)
    (by rw [hboardeq]; exact hb5)
    (by rw [hboardeq]; exact hroom)
    (by omega)
    (by rw [hmemoeq]; intro kv hkv; cases hkv)
  refine ⟨q, (compute_equity 5 br).2, ?_, hq0, hq1⟩
  rw [show compute_equity 5 br = ((compute_equity 5 br).1, (compute_equity 5 br).2)
    from rfl, hq]

/-- The drawn-set of one hand `Ac Ad` with board `2c7h8s9dJh`. -/
def drawnA5 : Nat :=
  (1 <<< 0) ||| (1 <<< 21) ||| (1 <<< 26) ||| (1 <<< 31) ||| (1 <<< 37)
    ||| (1 <<< 48) ||| (1 <<< 51)

/-- Witness for `solve_value_in_range`. -/
theorem solve_value_in_range_witness :
    ∃ q st, solve [['A','c','A','d']] ['2','c','7','h','8','s','9','d','J','h']
      = some (F.num q, st) ∧ 0 ≤ q ∧ q ≤ 1 :=
  solve_value_in_range _ _ handAA [] boardC2a
    ⟨⟨0, [handAA]⟩, handAA, ⟨drawnA5, 7⟩, boardC2a, []⟩
    (by decide) (by decide) (by decide) (by decide) (by decide)

/-- Twenty-four hole-card pairs covering every non-ace card. -/
def hands24 : List (List Char) :=
  [['2','c','2','h'], ['2','s','2','d'], ['3','c','3','h'], ['3','s','3','d'],
   ['4','c','4','h'], ['4','s','4','d'], ['5','c','5','h'], ['5','s','5','d'],
   ['6','c','6','h'], ['6','s','6','d'], ['7','c','7','h'], ['7','s','7','d'],
   ['8','c','8','h'], ['8','s','8','d'], ['9','c','9','h'], ['9','s','9','d'],
   ['T','c','T','h'], ['T','s','T','d'], ['J','c','J','h'], ['J','s','J','d'],
   ['Q','c','Q','h'], ['Q','s','Q','d'], ['K','c','K','h'], ['K','s','K','d']]

set_option maxRecDepth 100000 in
/-- Counterexample to C8: with 24 seats (48 hole cards) and the four aces
on the board, every card is drawn; the non-terminal root divides 0.0 by
zero and `solve` completes returning NaN, which lies in no interval. -/
theorem c8_full_deck_gives_nan :
    (solve hands24 ['A','c','A','h','A','s','A','d']).map Prod.fst = some F.nan ∧
    ∀ q : ℚ, F.nan ≠ F.num q := by
  refine ⟨by decide, fun q h => F.noConfusion h⟩

end PokerOdds

namespace PokerOdds

/-! ## A lone hand wins every showdown: the search returns exactly 1 -/

/-- Every cached value is exactly 1. -/
def MemoOne (m : List (Nat × F)) : Prop :=
  ∀ kv ∈ m, kv.2 = F.num 1

/-- With the hero in seat 0 of a one-seat game the villain loop has nobody
to test and reports a win. -/
theorem beatsAllGo_singleton_hero (board : Nat) (hr : Rank) (hk : Nat) (h : Hand) :
    beatsAllGo 0 board hr hk 0 [h] = (true, [h]) := rfl

theorem terminalEval_one_val {br : Brancher} (board : Nat)
    (hp : br.game.hero_pos = 0) (hh : ∃ h, br.game.hands = [h]) :
    (terminalEval br board).1 = F.num 1 := by
  obtain ⟨h, hh⟩ := hh
  have hv : (terminalEval br board).1 =
      (if (beatsAllGo br.game.hero_pos board (Hand.rank br.hero board).1
        (Hand.rank br.hero board).2.kicker 0 br.game.hands).1
       then F.num 1 else F.num 0) := rfl
  rw [hv, hp, hh, beatsAllGo_singleton_hero]
  rfl

/-- Value-exactness of a search step on one-seat games, for boards needing
at most `d` more cards. -/
def OneOK (next : Brancher → Nat → F × Brancher) (d : Nat) : Prop :=
  ∀ br board,
    br.game.hero_pos = 0 →
    br.game.hands.length = 1 →
    br.drawn.length = popcount br.drawn.s →
    br.drawn.s < 2 ^ 52 →
    (∀ j, board.testBit j = true → br.drawn.s.testBit j = true) →
    popcount board ≤ 5 →
    5 - popcount board ≤ 52 - br.drawn.length →
    5 - popcount board ≤ d →
    MemoOne br.memo →
    (next br board).1 = F.num 1 ∧ MemoOne (next br board).2.memo

theorem MemoOne_insert {m : List (Nat × F)} {k : Nat} (hm : MemoOne m) :
    MemoOne (insertM m k (F.num 1)) := by
  intro kv hkv
  rcases List.mem_cons.mp hkv with rfl | hmem
  · rfl
  · exact hm kv hmem

theorem branchGoOne {next : Brancher → Nat → F × Brancher} {d : Nat}
    (hpres : Pres next) (hnext : OneOK next d) (board : Nat)
    (hb5 : popcount board < 5) (hd : 5 - (popcount board + 1) ≤ d) :
    ∀ (l : List Nat) (p : ℚ) (br : Brancher),
      (∀ i ∈ l, i < 52) →
      br.game.hero_pos = 0 →
      br.game.hands.length = 1 →
      br.drawn.length = popcount br.drawn.s →
      br.drawn.s < 2 ^ 52 →
      (∀ j, board.testBit j = true → br.drawn.s.testBit j = true) →
      5 - (popcount board + 1) ≤ 52 - (br.drawn.length + 1) →
      MemoOne br.memo →
      (branchGo next l (F.num p) br board).1 =
        F.num (p + (l.countP (fun i => !(br.drawn.contains i)) : ℚ)) ∧
      MemoOne (branchGo next l (F.num p) br board).2.1.memo := by
  intro l
  induction l with
  | nil =>
    intro p br _ _ _ _ _ _ _ hmemo
    exact ⟨by simp [branchGo_nil], hmemo⟩
  | cons i rest ih =>
    intro p br hl hgp hgl hlen hs52 hsub hroom hmemo
    cases hc : br.drawn.contains i with
    | true =>
      rw [branchGo_cons_skip rest (F.num p) board hc]
      obtain ⟨h1, h2⟩ := ih p br (fun j hj => hl j (by simp [hj]))
        hgp hgl hlen hs52 hsub hroom hmemo
      refine ⟨?_, h2⟩
      rw [h1, List.countP_cons]
      simp [hc]
    | false =>
      rw [branchGo_step rest (F.num p) board hc]
      obtain ⟨hadds, hlen1, hs52a, hbbit, hb1eq, hpb1, hsub1, hrestore⟩ :=
        step_facts hc (hl i (by simp)) hlen hs52 hsub
      set A := add_to_end_of_board br i board with hA
      set T := next A.1 A.2 with hT
      set R := remove_from_end_of_board T.2 i A.2 with hR
      have hA1 : A.1 = ⟨br.game, br.hero, br.drawn.add i, br.board, br.memo⟩ := rfl
      have hA2 : A.2 = board ||| (1 <<< i) := rfl
      have hnx := hnext A.1 (A.2)
        (by rw [hA1]; exact hgp)
        (by rw [hA1]; exact hgl)
        (by rw [hA1]; exact hlen1)
        (by rw [hA1]; exact hs52a)
        (by rw [hA1, hA2, hb1eq]; exact hsub1)
        (by rw [hA2, hb1eq, hpb1]; omega)
        (by rw [hA1, hA2, hb1eq, hpb1]
            show 5 - (popcount board + 1) ≤ 52 - (br.drawn.add i).length
            rw [BitSet_add_length hc]
            exact hroom)
        (by rw [hA2, hb1eq, hpb1]; exact hd)
        (by rw [hA1]; exact hmemo)
      obtain ⟨hval1, hmemoc⟩ := hnx
      have hTd : T.2.drawn = br.drawn.add i := by
        have h' := (hpres A.1 A.2).1
        rw [← hT] at h'
        rw [h', hA1]
      have hTp : T.2.game.hero_pos = 0 := by
        have h' := (hpres A.1 A.2).2.1
        rw [← hT] at h'
        rw [h', hA1]
        exact hgp
      have hTl : T.2.game.hands.length = 1 := by
        have h' := (hpres A.1 A.2).2.2.1
        rw [← hT] at h'
        rw [h', hA1]
        exact hgl
      have hRdrawn : R.1.drawn = br.drawn := by
        rw [hR]
        show T.2.drawn.remove i = br.drawn
        rw [hTd]
        exact add_remove_of_not_contains hc
      have hRgame : R.1.game = T.2.game := rfl
      have hRmemo : R.1.memo = T.2.memo := rfl
      have hRboard : R.2 = board := by
        rw [hR]
        show A.2 - (1 <<< i) = board
        rw [hA2]
        exact hrestore
      have hsum : F.add (F.num p) T.1 = F.num (p + 1) := by
        rw [hT, hval1]; rfl
      rw [hsum, hRboard]
      obtain ⟨h1, h2⟩ := ih (p + 1) R.1
        (fun j hj => hl j (by simp [hj]))
        (by rw [hRgame]; exact hTp)
        (by rw [hRgame]; exact hTl)
        (by rw [hRdrawn]; exact hlen)
        (by rw [hRdrawn]; exact hs52)
        (by rw [hRdrawn]; exact hsub)
        (by rw [hRdrawn]; exact hroom)
        (by rw [hRmemo]; exact hmemoc)
      refine ⟨?_, h2⟩
      rw [h1]
      have hcount : (rest.countP (fun j => !(R.1.drawn.contains j)))
          = rest.countP (fun j => !(br.drawn.contains j)) := by
        apply List.countP_congr
        intro x _
        rw [hRdrawn]
      rw [hcount]
      congr 1
      rw [List.countP_cons, hc]
      rw [if_pos (by rfl : (!false) = true)]
      push_cast
      ring

theorem branch_base_one {fuel : Nat} {br : Brancher} {board : Nat}
    (hmemo : MemoOne br.memo) (h5 : popcount board = 5)
    (hgp : br.game.hero_pos = 0) (hgl : br.game.hands.length = 1) :
    (branch fuel br board).1 = F.num 1 ∧ MemoOne (branch fuel br board).2.memo := by
  cases hl : lookupM br.memo br.drawn.s with
  | some v =>
    rw [branch_hit fuel board hl]
    exact ⟨hmemo _ (lookupM_mem _ _ _ hl), hmemo⟩
  | none =>
    rw [branch_terminal fuel hl h5]
    have hone := terminalEval_one_val board hgp (List.length_eq_one.mp hgl)
    refine ⟨hone, ?_⟩
    rw [terminalEval_memo, hone]
    exact MemoOne_insert hmemo

theorem branchOne : ∀ fuel : Nat, OneOK (branch fuel) fuel := by
  intro fuel
  induction fuel with
  | zero =>
    intro br board hgp hgl hlen hs52 hsub hb5 hroom hd hmemo
    exact branch_base_one hmemo (by omega) hgp hgl
  | succ f ih =>
    intro br board hgp hgl hlen hs52 hsub hb5 hroom hd hmemo
    cases hl : lookupM br.memo br.drawn.s with
    | some v =>
      rw [branch_hit (f + 1) board hl]
      exact ⟨hmemo _ (lookupM_mem _ _ _ hl), hmemo⟩
    | none =>
      by_cases h5 : popcount board = 5
      · exact branch_base_one hmemo h5 hgp hgl
      · have hlt5 : popcount board < 5 := by omega
        obtain ⟨hp1, hp4⟩ :=
          branchGoOne (branch_pres f) ih board hlt5 (by omega) (List.range 52) 0 br
            (fun i hi => List.mem_range.mp hi) hgp hgl hlen hs52 hsub (by omega) hmemo
        set G := branchGo (branch f) (List.range 52) (F.num 0) br board with hG
        have hGd : G.2.1.drawn = br.drawn :=
          (branchGo_pres (branch_pres f) (List.range 52) (F.num 0) br board).1
        have hval : (branch (f + 1) br board).1 = F.divN G.1 (52 - G.2.1.drawn.length) := by
          simp only [branch_nonterminal f hl h5, hG]
        have hmem : (branch (f + 1) br board).2.memo =
            insertM G.2.1.memo G.2.1.drawn.s (F.divN G.1 (52 - G.2.1.drawn.length)) := by
          simp only [branch_nonterminal f hl h5, hG]
        have hn : 0 < 52 - br.drawn.length := by omega
        have hGval : G.1 = F.num ((52 - br.drawn.length : Nat) : ℚ) := by
          rw [hG] at hp1
          rw [hp1, countP_undrawn hlen hs52]
          congr 1
          push_cast [Nat.cast_sub (by omega : br.drawn.length ≤ 52)]
          ring
        have hdiv : F.divN G.1 (52 - G.2.1.drawn.length) = F.num 1 := by
          rw [hGd, hGval]
          simp only [F.divN]
          rw [if_neg (by omega)]
          congr 1
          rw [div_self (by
            exact_mod_cast (show (52 - br.drawn.length : Nat) ≠ 0 by omega)
            : ((52 - br.drawn.length : Nat) : ℚ) ≠ 0)]
        refine ⟨by rw [hval, hdiv], ?_⟩
        rw [hmem, hdiv]
        exact MemoOne_insert hp4

theorem chunkFold_one (fuel : Nat) (br : Brancher)
    (hgp : br.game.hero_pos = 0) (hgl : br.game.hands.length = 1)
    (hlen : br.drawn.length = popcount br.drawn.s) (hs52 : br.drawn.s < 2 ^ 52)
    (hsub : ∀ j, br.board.testBit j = true → br.drawn.s.testBit j = true)
    (hb5 : popcount br.board < 5)
    (hroom : 5 - (popcount br.board + 1) ≤ 52 - (br.drawn.length + 1))
    (hd : 5 - (popcount br.board + 1) ≤ fuel) :
    ∀ (cs : List (Nat × Nat)) (p : ℚ) (memo : List (Nat × F)),
      (∀ c ∈ cs, ∀ i ∈ List.range' c.1 (c.2 - c.1), i < 52) →
      MemoOne memo →
      (cs.foldl (fun acc c =>
          let w := workerRun fuel br acc.2 c
          (F.add acc.1 w.1, w.2)) (F.num p, memo)).1 =
        F.num (p + ((cs.map (fun c =>
          (List.range' c.1 (c.2 - c.1)).countP (fun i => !(br.drawn.contains i)))).sum : ℚ)) ∧
      MemoOne (cs.foldl (fun acc c =>
          let w := workerRun fuel br acc.2 c
          (F.add acc.1 w.1, w.2)) (F.num p, memo)).2 := by
  intro cs
  induction cs with
  | nil =>
    intro p memo _ hm
    exact ⟨by simp, hm⟩
  | cons c rest ih =>
    intro p memo hcs hm
    obtain ⟨hqc1, hqcM⟩ :=
      branchGoOne (branch_pres fuel) (branchOne fuel) br.board hb5 hd
        (List.range' c.1 (c.2 - c.1)) 0
        ⟨br.game, br.hero, br.drawn, br.board, memo⟩
        (hcs c (by simp)) hgp hgl hlen hs52 hsub hroom hm
    have hw1 : (workerRun fuel br memo c).1 =
        (branchGo (branch fuel) (List.range' c.1 (c.2 - c.1)) (F.num 0)
          ⟨br.game, br.hero, br.drawn, br.board, memo⟩ br.board).1 := rfl
    have hw2 : (workerRun fuel br memo c).2 =
        (branchGo (branch fuel) (List.range' c.1 (c.2 - c.1)) (F.num 0)
          ⟨br.game, br.hero, br.drawn, br.board, memo⟩ br.board).2.1.memo := rfl
    rw [List.foldl_cons]
    have hcnt : ((List.range' c.1 (c.2 - c.1)).countP
        (fun i => !((⟨br.game, br.hero, br.drawn, br.board, memo⟩ : Brancher).drawn.contains i)))
        = ((List.range' c.1 (c.2 - c.1)).countP (fun i => !(br.drawn.contains i))) := rfl
    have hstep : (F.add (F.num p) (workerRun fuel br memo c).1,
        (workerRun fuel br memo c).2) =
        ((F.num (p + ((List.range' c.1 (c.2 - c.1)).countP
          (fun i => !(br.drawn.contains i)) : ℚ))), (workerRun fuel br memo c).2) := by
      rw [hw1, hqc1, hcnt]
      rw [show F.add (F.num p) (F.num (0 + ((List.range' c.1 (c.2 - c.1)).countP
        (fun i => !(br.drawn.contains i)) : ℚ)))
        = F.num (p + (0 + ((List.range' c.1 (c.2 - c.1)).countP
          (fun i => !(br.drawn.contains i)) : ℚ))) from rfl]
      rw [zero_add]
    rw [hstep]
    obtain ⟨h1, h2⟩ := ih
      (p + ((List.range' c.1 (c.2 - c.1)).countP (fun i => !(br.drawn.contains i)) : ℚ))
      (workerRun fuel br memo c).2
      (fun c' hc' => hcs c' (by simp [hc']))
      (by rw [hw2]; exact hqcM)
    refine ⟨?_, h2⟩
    rw [h1]
    congr 1
    rw [List.map_cons, List.sum_cons]
    push_cast
    ring

theorem branch_parallel_one (fuel : Nat) (br : Brancher)
    (hgp : br.game.hero_pos = 0) (hgl : br.game.hands.length = 1)
    (hlen : br.drawn.length = popcount br.drawn.s) (hs52 : br.drawn.s < 2 ^ 52)
    (hsub : ∀ j, br.board.testBit j = true → br.drawn.s.testBit j = true)
    (hb5 : popcount br.board < 5)
    (hroom : 5 - (popcount br.board + 1) ≤ 52 - (br.drawn.length + 1))
    (hd : 5 - (popcount br.board + 1) ≤ fuel)
    (hn : 0 < 52 - br.drawn.length)
    (hmemo : MemoOne br.memo) :
    (branch_parallel fuel br 8).1 = F.num 1 := by
  obtain ⟨h1, _⟩ := chunkFold_one fuel br hgp hgl hlen hs52 hsub hb5 hroom hd
    (chunksFor 8) 0 br.memo (by decide) hmemo
  have hsumeq : ((chunksFor 8).map (fun c =>
      (List.range' c.1 (c.2 - c.1)).countP (fun i => !(br.drawn.contains i)))).sum
      = (List.range 52).countP (fun i => !(br.drawn.contains i)) := by
    have hflat : ((chunksFor 8).map (fun c => List.range' c.1 (c.2 - c.1))).flatten
        = List.range 52 := by decide
    rw [← hflat, List.countP_flatten, List.map_map]
    rfl
  have hval : (branch_parallel fuel br 8).1 =
      F.divN (((chunksFor 8).foldl (fun acc c =>
        let w := workerRun fuel br acc.2 c
        (F.add acc.1 w.1, w.2)) (F.num 0, br.memo)).1) (52 - br.drawn.length) := rfl
  rw [hval, h1, hsumeq, countP_undrawn hlen hs52]
  simp only [F.divN]
  rw [if_neg (by omega)]
  congr 1
  rw [zero_add,
    div_self (by
      exact_mod_cast (show (52 - br.drawn.length : Nat) ≠ 0 by omega)
      : ((52 - br.drawn.length : Nat) : ℚ) ≠ 0)]

theorem compute_equity_one (fuel : Nat) (br : Brancher)
    (hgp : br.game.hero_pos = 0) (hgl : br.game.hands.length = 1)
    (hlen : br.drawn.length = popcount br.drawn.s) (hs52 : br.drawn.s < 2 ^ 52)
    (hsub : ∀ j, br.board.testBit j = true → br.drawn.s.testBit j = true)
    (hb5 : popcount br.board ≤ 5)
    (hroom : 5 - popcount br.board ≤ 52 - br.drawn.length)
    (hd : 5 - popcount br.board ≤ fuel)
    (hmemo : MemoOne br.memo) :
    (compute_equity fuel br).1 = F.num 1 := by
  rw [compute_equity]
  cases hl : lookupM br.memo br.drawn.s with
  | some v =>
    simp only [hl]
    exact hmemo _ (lookupM_mem _ _ _ hl)
  | none =>
    simp only [hl]
    by_cases h4 : 4 ≤ popcount br.board
    · rw [if_pos h4]
      exact (branchOne fuel br br.board hgp hgl hlen hs52 hsub hb5 hroom hd hmemo).1
    · rw [if_neg h4]
      have hb5' : popcount br.board < 5 := by omega
      exact branch_parallel_one fuel br hgp hgl hlen hs52 hsub hb5'
        (by omega) (by omega) (by omega) hmemo

theorem BitSet_add_length_le (b : BitSet) (i : Nat) :
    (b.add i).length ≤ b.length + 1 := by
  rw [BitSet.add]
  split
  · omega
  · exact le_refl _

/-- C10: with a single hole-card string the hero has no opponents; every
terminal showdown reports a win, every interior node averages children all
equal to 1, and `solve` returns exactly 1.0. -/
theorem solve_single_hand_one (hand : List Char) (bd : List Char)
    (h0 : Hand) (board : Nat) (br : Brancher)
    (h1 : parseHands [hand] = some [h0])
    (h2 : parseBoard bd = some board)
    (h3 : Brancher.new ⟨0, [h0]⟩ board [] = some br)
    (hb5 : popcount board ≤ 5) :
    ∃ st, solve [hand] bd = some (F.num 1, st) := by
  rw [solve, Solver.solve]
  simp only [h1, h2, h3]
  obtain ⟨hbinv, hsub, hmemoeq, hboardeq, hgameeq⟩ :=
    Brancher_new_inv h3 (parseHands_idx_lt h1) (parseBoard_lt h2)
  have hdr : br.drawn =
      ((BitSet.new.add h0.hole0.idx).add h0.hole1.idx).add_board board := by
    have h3' := h3
    rw [show Brancher.new ⟨0, [h0]⟩ board [] =
      some ⟨⟨0, [h0]⟩, h0,
        ((BitSet.new.add h0.hole0.idx).add h0.hole1.idx).add_board board, board, []⟩
      from rfl] at h3'
    injection h3' with hbr
    rw [← hbr]
  have hlen7 : br.drawn.length ≤ 7 := by
    rw [hdr]
    have hl1 : (BitSet.new.add h0.hole0.idx).length ≤ 1 := by
      have := BitSet_add_length_le BitSet.new h0.hole0.idx
      have h0l : BitSet.new.length = 0 := rfl
      omega
    have hl2 : ((BitSet.new.add h0.hole0.idx).add h0.hole1.idx).length ≤ 2 := by
      have := BitSet_add_length_le (BitSet.new.add h0.hole0.idx) h0.hole1.idx
      omega
    have hl3 : (((BitSet.new.add h0.hole0.idx).add h0.hole1.idx).add_board board).length
        = ((BitSet.new.add h0.hole0.idx).add h0.hole1.idx).length
          + (popcount board
            - popcount (board &&& ((BitSet.new.add h0.hole0.idx).add h0.hole1.idx).s)) := rfl
    omega
  have hval := compute_equity_one 5 br
    (by rw [hgameeq])
    (by rw [hgameeq]; rfl)
    hbinv.1 hbinv.2
    (by rw [hboardeq]; exact hsub)
    (by rw [hboardeq]; exact hb5)
    (by rw [hboardeq]; omega)
    (by omega)
    (by rw [hmemoeq]; intro kv hkv; cases hkv)
  refine ⟨(compute_equity 5 br).2, ?_⟩
  rw [show compute_equity 5 br = ((compute_equity 5 br).1, (compute_equity 5 br).2)
    from rfl, hval]

/-- Witness for `solve_single_hand_one`. -/
theorem solve_single_hand_one_witness :
    ∃ st, solve [['A','c','A','d']] ['2','c','7','h','8','s','9','d','J','h']
      = some (F.num 1, st) :=
  solve_single_hand_one _ _ handAA boardC2a
    ⟨⟨0, [handAA]⟩, handAA, ⟨drawnA5, 7⟩, boardC2a, []⟩
    (by decide) (by decide) (by decide) (by decide)

end PokerOdds

namespace PokerOdds

theorem findSome_none {α β : Type} (f : α → Option β) :
    ∀ l : List α, (l.findSome? f = none ↔ ∀ a ∈ l, f a = none) := by
  intro l
  induction l with
  | nil => simp [List.findSome?]
  | cons a r ih =>
    rw [List.findSome?]
    cases hfa : f a with
    | none => simp [hfa, ih]
    | some b => simp [hfa]

theorem ifSomeNone {α : Type} {c : Prop} [Decidable c] {x : α} :
    ((if c then some x else none) = none) ↔ ¬c := by
  split
  · simp [*]
  · simp [*]

theorem ifNoneSome {α : Type} {c : Prop} [Decidable c] {x : α} :
    ((if c then none else some x) = none) ↔ c := by
  split
  · simp [*]
  · simp [*]

theorem and_eq_self_iff (c x : Nat) :
    c &&& x = x ↔ ∀ j, x.testBit j = true → c.testBit j = true := by
  constructor
  · intro h j hj
    have h' := congrArg (fun t => t.testBit j) h
    simp only [Nat.testBit_land] at h'
    rw [hj, Bool.and_true] at h'
    exact h'
  · intro h
    apply Nat.eq_of_testBit_eq
    intro j
    rw [Nat.testBit_land]
    cases hx : x.testBit j
    · simp
    · simp [h j hx]

theorem and_lor_eq_iff (c u v : Nat) :
    (c &&& (u ||| v) = u ||| v) ↔ (c &&& u = u ∧ c &&& v = v) := by
  simp only [and_eq_self_iff, Nat.testBit_lor]
  constructor
  · intro h
    refine ⟨fun j hj => h j (by rw [hj]; simp), fun j hj => h j (by rw [hj]; simp)⟩
  · intro h j hj
    rcases (by simpa using hj : u.testBit j = true ∨ v.testBit j = true) with hu | hv
    · exact h.1 j hu
    · exact h.2 j hv

theorem beq_and_lor (c u v : Nat) :
    (c &&& (u ||| v) == u ||| v) = ((c &&& u == u) && (c &&& v == v)) := by
  rw [Bool.eq_iff_iff]
  simp only [beq_iff_eq, Bool.and_eq_true]
  exact and_lor_eq_iff c u v

theorem bne_zero_eq_beq_self (c k : Nat) :
    (c &&& (1 <<< k) != 0) = (c &&& (1 <<< k) == 1 <<< k) := by
  rw [one_shiftLeft_eq, Nat.and_two_pow]
  have h2 : (0:Nat) < 2 ^ k := pow_pos (by norm_num) k
  cases h : c.testBit k
  · rw [Bool.eq_iff_iff]
    simp
    omega
  · rw [Bool.eq_iff_iff]
    simp

theorem beq_land_comm (a c : Nat) : (a &&& c == a) = (c &&& a == a) := by
  rw [Nat.land_comm]

theorem wheel_atom (c W k : Nat) (hk : acesMask &&& (1 <<< k) = 1 <<< k) :
    ((c &&& W == W) && ((c &&& acesMask) &&& (1 <<< k) != 0))
      = (c &&& (W ||| 1 <<< k) == W ||| 1 <<< k) := by
  rw [Nat.land_assoc, hk, bne_zero_eq_beq_self, beq_and_lor]

theorem laneBitmask_append_trues (l : List Bool) :
    laneBitmask (l ++ [true, true, true, true, true, true, true])
      = laneBitmask l + 2 ^ l.length * 127 := by
  induction l with
  | nil => rfl
  | cons b r ih =>
    have hstep : laneBitmask ((b :: r) ++
        [true, true, true, true, true, true, true])
        = (if b then 1 else 0) + 2 * laneBitmask (r ++
          [true, true, true, true, true, true, true]) := rfl
    rw [hstep, ih, List.length_cons,
      show laneBitmask (b :: r) = (if b then 1 else 0) + 2 * laneBitmask r from rfl]
    ring

theorem laneBitmask_lt (l : List Bool) : laneBitmask l < 2 ^ l.length := by
  induction l with
  | nil => norm_num [laneBitmask]
  | cons b r ih =>
    simp only [laneBitmask, List.length_cons, pow_succ]
    have hb : (if b then 1 else 0) ≤ 1 := by cases b <;> simp
    omega

theorem laneBitmask_eq_zero_iff (l : List Bool) :
    laneBitmask l = 0 ↔ ∀ b ∈ l, b = false := by
  induction l with
  | nil => simp [laneBitmask]
  | cons b r ih =>
    simp only [laneBitmask, List.forall_mem_cons, ← ih]
    cases b
    · simp
    · simp

theorem xor_clear_lanes {v : Nat} (hv : v < 2 ^ 9) : (v + 65024) ^^^ 65024 = v := by
  apply Nat.eq_of_testBit_eq
  intro j
  rw [Nat.testBit_xor]
  have h1 : v + 65024 = 2 ^ 9 * 127 + v := by norm_num [Nat.add_comm]
  have h2 : (65024 : Nat) = 2 ^ 9 * 127 + 0 := by norm_num
  rw [h1, Nat.testBit_mul_pow_two_add _ hv, h2,
    Nat.testBit_mul_pow_two_add _ (by norm_num : (0:Nat) < 2 ^ 9)]
  by_cases hj : j < 9
  · simp [hj, Nat.zero_testBit]
  · have hvj : v.testBit j = false :=
      Nat.testBit_eq_false_of_lt
        (lt_of_lt_of_le hv (Nat.pow_le_pow_right (by norm_num) (by omega)))
    simp [hj, hvj]

theorem lanes_iff (t0 t1 t2 t3 t4 t5 t6 t7 t8 : Bool) :
    (laneBitmask [t0, t1, t2, t3, t4, t5, t6, t7, t8,
        true, true, true, true, true, true, true] ^^^ 65024 = 0)
    ↔ (t0 = false ∧ t1 = false ∧ t2 = false ∧ t3 = false ∧ t4 = false ∧
        t5 = false ∧ t6 = false ∧ t7 = false ∧ t8 = false) := by
  have hsplit : [t0, t1, t2, t3, t4, t5, t6, t7, t8,
      true, true, true, true, true, true, true]
      = [t0, t1, t2, t3, t4, t5, t6, t7, t8] ++
        [true, true, true, true, true, true, true] := rfl
  rw [hsplit, laneBitmask_append_trues]
  have hv := laneBitmask_lt [t0, t1, t2, t3, t4, t5, t6, t7, t8]
  rw [show ([t0, t1, t2, t3, t4, t5, t6, t7, t8] : List Bool).length = 9 from rfl] at hv ⊢
  rw [show (2:Nat) ^ 9 * 127 = 65024 from by norm_num, xor_clear_lanes hv,
    laneBitmask_eq_zero_iff]
  simp [List.forall_mem_cons]

/-- For every card-set bitmask the SIMD straight-flush detector agrees
with the retained scalar implementation on WHETHER a straight flush is
present (`isSome`); the kickers the two return differ. -/
theorem straight_flush_simd_agrees (cards : Nat) :
    (is_straight_flush_simd cards).isSome = (is_straight_flush cards).isSome := by
  suffices h : is_straight_flush_simd cards = none ↔ is_straight_flush cards = none by
    cases hA : is_straight_flush_simd cards with
    | none =>
      cases hB : is_straight_flush cards with
      | none => rfl
      | some b =>
        have hx := h.mp hA
        rw [hB] at hx
        cases hx
    | some a =>
      cases hB : is_straight_flush cards with
      | none =>
        have hx := h.mpr hB
        rw [hA] at hx
        cases hx
      | some b => rfl
  have hz : ∀ c : Nat, (c &&& 0 == 0) = true := by
    intro c
    rw [Nat.and_zero]
    rfl
  simp only [is_straight_flush_simd, is_straight_flush, findSome_none,
    ifSomeNone, ifNoneSome, Bool.not_eq_true]
  simp only [show List.range 4 = [0, 1, 2, 3] from by decide,
    show List.range 9 = [0, 1, 2, 3, 4, 5, 6, 7, 8] from by decide,
    List.forall_mem_cons, List.forall_mem_nil, and_true]
  simp only [List.map_cons, List.map_nil, hz, lanes_iff]
  simp only [show (decide ((0:Nat) < 8)) = true from rfl,
    show (decide ((1:Nat) < 8)) = true from rfl,
    show (decide ((2:Nat) < 8)) = true from rfl,
    show (decide ((3:Nat) < 8)) = true from rfl,
    show (decide ((4:Nat) < 8)) = true from rfl,
    show (decide ((5:Nat) < 8)) = true from rfl,
    show (decide ((6:Nat) < 8)) = true from rfl,
    show (decide ((7:Nat) < 8)) = true from rfl,
    show (decide ((8:Nat) < 8)) = false from rfl,
    show (decide ((0:Nat) = 8)) = false from rfl,
    show (decide ((1:Nat) = 8)) = false from rfl,
    show (decide ((2:Nat) = 8)) = false from rfl,
    show (decide ((3:Nat) = 8)) = false from rfl,
    show (decide ((4:Nat) = 8)) = false from rfl,
    show (decide ((5:Nat) = 8)) = false from rfl,
    show (decide ((6:Nat) = 8)) = false from rfl,
    show (decide ((7:Nat) = 8)) = false from rfl,
    show (decide ((8:Nat) = 8)) = true from rfl,
    show (decide True) = true from rfl,
    Bool.true_and, Bool.false_and, Bool.or_false, Bool.false_or]
  simp only [beq_land_comm]
  rw [wheel_atom cards ((sfBase >>> (4 * 8)) <<< 0) (48 + 0) (by decide),
    wheel_atom cards ((sfBase >>> (4 * 8)) <<< 1) (48 + 1) (by decide),
    wheel_atom cards ((sfBase >>> (4 * 8)) <<< 2) (48 + 2) (by decide),
    wheel_atom cards ((sfBase >>> (4 * 8)) <<< 3) (48 + 3) (by decide)]
  have hT : ∀ {P : Nat → Prop} (x : Nat), x ∈ ([] : List Nat) → P x :=
    fun x hx => absurd hx (List.not_mem_nil x)
  constructor
  · rintro ⟨⟨w0, a01, a02, a03, a04, a05, a06, a07, a08⟩,
      ⟨w1, a11, a12, a13, a14, a15, a16, a17, a18⟩,
      ⟨w2, a21, a22, a23, a24, a25, a26, a27, a28⟩,
      ⟨w3, a31, a32, a33, a34, a35, a36, a37, a38⟩, -⟩
    exact ⟨⟨a08, a18, a28, a38, hT⟩, ⟨a07, a17, a27, a37, hT⟩,
      ⟨a06, a16, a26, a36, hT⟩, ⟨a05, a15, a25, a35, hT⟩,
      ⟨a04, a14, a24, a34, hT⟩, ⟨a03, a13, a23, a33, hT⟩,
      ⟨a02, a12, a22, a32, hT⟩, ⟨a01, a11, a21, a31, hT⟩,
      ⟨w0, w1, w2, w3, hT⟩, hT⟩
  · rintro ⟨⟨b00, b01, b02, b03, -⟩, ⟨b10, b11, b12, b13, -⟩,
      ⟨b20, b21, b22, b23, -⟩, ⟨b30, b31, b32, b33, -⟩,
      ⟨b40, b41, b42, b43, -⟩, ⟨b50, b51, b52, b53, -⟩,
      ⟨b60, b61, b62, b63, -⟩, ⟨b70, b71, b72, b73, -⟩,
      ⟨w0, w1, w2, w3, -⟩, -⟩
    exact ⟨⟨w0, b70, b60, b50, b40, b30, b20, b10, b00⟩,
      ⟨w1, b71, b61, b51, b41, b31, b21, b11, b01⟩,
      ⟨w2, b72, b62, b52, b42, b32, b22, b12, b02⟩,
      ⟨w3, b73, b63, b53, b43, b33, b23, b13, b03⟩, hT⟩

/-! ## The scalar reference detectors and their presence agreement with the
SIMD ones (claim C5) -/

/-- Scalar `is_quads`: scan the value blocks from aces down for a fully
contained block. -/
def is_quads (cards : Nat) : Option Nat :=
  (List.range 13).findSome? (fun i =>
    let mask := ((0xF : Nat) <<< 48) >>> (4 * i)
    if mask &&& cards == mask then some (14 - i) else none)

/-- Scalar `is_fullhouse`: the first loop breaks at the highest block with
exactly three cards (`tmp = 14 - i`, never 0); the second returns at the
first other block holding at least two. -/
def is_fullhouse (cards : Nat) : Option Nat :=
  match (List.range 13).findSome? (fun i =>
      if popcount ((((0xF : Nat) <<< 48) >>> (4 * i)) &&& cards) = 3 then some (14 - i)
      else none) with
  | none => none
  | some tmp =>
    (List.range 13).findSome? (fun i =>
      if i + tmp ≠ 14 ∧ 2 ≤ popcount ((((0xF : Nat) <<< 48) >>> (4 * i)) &&& cards)
      then some (tmp * 100 + (14 - i)) else none)

/-- Scalar `is_flush`: four suit scans, kicker `64 - leading_zeros` of the
matched suit's cards. -/
def is_flush (cards : Nat) : Option Nat :=
  (List.range 4).findSome? (fun d =>
    let m := (suitMask <<< d) &&& cards
    if 5 ≤ popcount m then some (bitlen m) else none)

/-- The value-presence key the scalar `is_straight` builds: bit `i+1` for
each nonempty value block, the ace copied to bit 0. -/
def straightKey (cards : Nat) : Nat :=
  (List.range 13).foldl (fun kb i =>
    if cards &&& ((0xF : Nat) <<< (4 * i)) != 0 then
      if i = 12 then (kb ||| (1 <<< (i + 1))) ||| 1 else kb ||| (1 <<< (i + 1))
    else kb) 0

/-- Scalar `is_straight`: the eleven 5-in-a-row windows over the key, from
the top down. -/
def is_straight (cards : Nat) : Option Nat :=
  (List.range 11).findSome? (fun i =>
    let mask := (31744 : Nat) >>> i
    if mask &&& straightKey cards == mask then some (14 - i) else none)

/-- Second loop of the scalar `is_three_of_a_kind`: accumulate nonempty
blocks from the top until the running count reaches 3. -/
def tripsGo : List Nat → Nat → Nat → Nat → Option Nat
  | [], _, _, _ => none
  | i :: rest, cards, tmp, count =>
    let mask := ((0xF : Nat) <<< 48) >>> (4 * i)
    let st := if cards &&& mask != 0 then (tmp * 100 + (14 - i), count + 1)
      else (tmp, count)
    if st.2 = 3 then some st.1 else tripsGo rest cards st.1 st.2

/-- Scalar `is_three_of_a_kind`: a block of three plus at least two nonempty
blocks in the second scan. -/
def is_three_of_a_kind (cards : Nat) : Option Nat :=
  match (List.range 13).findSome? (fun i =>
      if popcount ((((0xF : Nat) <<< 48) >>> (4 * i)) &&& cards) = 3 then some (14 - i)
      else none) with
  | none => none
  | some tmp => tripsGo (List.range 13) cards tmp 1

/-- Second loop of the scalar `is_pair`: accumulate nonempty blocks from the
top until the running count reaches 4. -/
def pairGo : List Nat → Nat → Nat → Nat → Option Nat
  | [], _, _, _ => none
  | i :: rest, cards, tmp, count =>
    let mask := ((0xF : Nat) <<< 48) >>> (4 * i)
    let st := if cards &&& mask != 0 then (tmp * 100 + (14 - i), count + 1)
      else (tmp, count)
    if st.2 = 4 then some st.1 else pairGo rest cards st.1 st.2

/-- Scalar `is_pair`: a block of exactly two plus at least three nonempty
blocks in the second scan. -/
def is_pair (cards : Nat) : Option Nat :=
  match (List.range 13).findSome? (fun i =>
      if popcount ((((0xF : Nat) <<< 48) >>> (4 * i)) &&& cards) = 2 then some (14 - i)
      else none) with
  | none => none
  | some tmp => pairGo (List.range 13) cards tmp 1

/-- Scalar `is_two_pair`: count the blocks of exactly two over all thirteen,
then return at the first nonempty block. -/
def is_two_pair (cards : Nat) : Option Nat :=
  let tc := (List.range 13).foldl (fun (s : Nat × Nat) i =>
    if popcount ((((0xF : Nat) <<< 48) >>> (4 * i)) &&& cards) = 2 then
      (s.1 * 100 + (14 - i), s.2 + 1) else s) ((0, 0) : Nat × Nat)
  if tc.2 < 2 then none
  else (List.range 13).findSome? (fun i =>
    if (((0xF : Nat) <<< 48) >>> (4 * i)) &&& cards != 0 then
      some (tc.1 * 100 + (14 - i))
    else none)

/-! ## Lane and bit toolkit for the predicate-agreement proofs -/

theorem laneBitmask_append (l ts : List Bool) :
    laneBitmask (l ++ ts) = laneBitmask l + 2 ^ l.length * laneBitmask ts := by
  induction l with
  | nil => simp [laneBitmask]
  | cons b r ih =>
    have hstep : laneBitmask ((b :: r) ++ ts)
        = (if b then 1 else 0) + 2 * laneBitmask (r ++ ts) := rfl
    rw [hstep, ih, List.length_cons,
      show laneBitmask (b :: r) = (if b then 1 else 0) + 2 * laneBitmask r from rfl]
    ring

theorem xor_clear_high {v c n : Nat} (hv : v < 2 ^ n) :
    (v + 2 ^ n * c) ^^^ 2 ^ n * c = v := by
  apply Nat.eq_of_testBit_eq
  intro j
  rw [Nat.testBit_xor]
  have h1 : v + 2 ^ n * c = 2 ^ n * c + v := by ring
  have h2 : 2 ^ n * c = 2 ^ n * c + 0 := by ring
  rw [h1, Nat.testBit_mul_pow_two_add _ hv, h2,
    Nat.testBit_mul_pow_two_add _ (by positivity : (0:Nat) < 2 ^ n)]
  by_cases hj : j < n
  · simp [hj, Nat.zero_testBit]
  · have hvj : v.testBit j = false :=
      Nat.testBit_eq_false_of_lt
        (lt_of_lt_of_le hv (Nat.pow_le_pow_right (by norm_num) (by omega)))
    simp [hj, hvj]

theorem xor_clear_low {v c n : Nat} (hc : c < 2 ^ n) :
    (c + 2 ^ n * v) ^^^ c = 2 ^ n * v := by
  apply Nat.eq_of_testBit_eq
  intro j
  rw [Nat.testBit_xor]
  have h1 : c + 2 ^ n * v = 2 ^ n * v + c := by ring
  rw [h1, Nat.testBit_mul_pow_two_add _ hc]
  rw [show (2 ^ n * v).testBit j = (2 ^ n * v + 0).testBit j from by rw [Nat.add_zero]]
  rw [Nat.testBit_mul_pow_two_add _ (by positivity : (0:Nat) < 2 ^ n)]
  by_cases hj : j < n
  · simp [hj, Nat.zero_testBit]
  · have hcj : c.testBit j = false :=
      Nat.testBit_eq_false_of_lt
        (lt_of_lt_of_le hc (Nat.pow_le_pow_right (by norm_num) (by omega)))
    simp [hj, hcj]

theorem testBit_laneBitmask (l : List Bool) :
    ∀ j, (laneBitmask l).testBit j = l.getD j false := by
  induction l with
  | nil => intro j; simp [laneBitmask, Nat.zero_testBit]
  | cons b r ih =>
    intro j
    have hb : laneBitmask (b :: r) = Nat.bit b (laneBitmask r) := by
      rw [show laneBitmask (b :: r) = (if b then 1 else 0) + 2 * laneBitmask r from rfl,
        Nat.bit]
      cases b
      · simp
      · simp [Nat.add_comm]
    rw [hb]
    cases j with
    | zero => rw [Nat.testBit_bit_zero]; rfl
    | succ k => rw [Nat.testBit_bit_succ, ih]; rfl

theorem ne_zero_iff_exists_testBit {m : Nat} :
    m ≠ 0 ↔ ∃ j, m.testBit j = true := by
  constructor
  · intro hm
    by_contra h
    push_neg at h
    exact hm (Nat.eq_of_testBit_eq (fun j => by
      rw [Nat.zero_testBit]
      exact Bool.eq_false_iff.mpr (h j)))
  · rintro ⟨j, hj⟩ rfl
    rw [Nat.zero_testBit] at hj
    cases hj

theorem ge_two_pow_of_testBit {m p : Nat} (h : m.testBit p = true) : 2 ^ p ≤ m := by
  rw [Nat.testBit_to_div_mod] at h
  have h1 : 1 ≤ m / 2 ^ p := by
    by_contra hlt
    push_neg at hlt
    interval_cases hd : m / 2 ^ p
    simp [hd] at h
  calc 2 ^ p = 1 * 2 ^ p := by ring
  _ ≤ (m / 2 ^ p) * 2 ^ p := by
    exact Nat.mul_le_mul_right _ h1
  _ ≤ m := Nat.div_mul_le_self m (2 ^ p)

theorem lt_two_pow_of_high_false {m n : Nat}
    (h : ∀ j, n ≤ j → m.testBit j = false) : m < 2 ^ n := by
  have hz : m >>> n = 0 := by
    apply Nat.eq_of_testBit_eq
    intro j
    rw [Nat.testBit_shiftRight, Nat.zero_testBit]
    exact h (n + j) (by omega)
  rw [Nat.shiftRight_eq_div_pow] at hz
  have := (Nat.div_eq_zero_iff (by positivity : 0 < 2 ^ n)).mp hz
  exact this

theorem size_highest {m : Nat} (hm : m ≠ 0) :
    m.testBit (Nat.size m - 1) = true ∧ ∀ j, Nat.size m ≤ j → m.testBit j = false := by
  have hs1 : 1 ≤ Nat.size m := by
    rcases Nat.eq_zero_or_pos (Nat.size m) with h0 | h
    · exact absurd (Nat.size_eq_zero.mp h0) hm
    · exact h
  constructor
  · have hle : 2 ^ (Nat.size m - 1) ≤ m := Nat.lt_size.mp (by omega)
    have hlt : m < 2 ^ Nat.size m := Nat.lt_size_self m
    have hd1 : 1 ≤ m / 2 ^ (Nat.size m - 1) :=
      (Nat.one_le_div_iff (by positivity)).mpr hle
    have hd2 : m / 2 ^ (Nat.size m - 1) < 2 := by
      rw [Nat.div_lt_iff_lt_mul (by positivity : 0 < 2 ^ (Nat.size m - 1))]
      have hps : 2 ^ (Nat.size m - 1) * 2 = 2 ^ Nat.size m := by
        rw [← pow_succ]
        congr 1
        omega
      omega
    have hd : m / 2 ^ (Nat.size m - 1) = 1 := by omega
    rw [Nat.testBit_to_div_mod, hd]
    rfl
  · intro j hj
    exact Nat.testBit_eq_false_of_lt
      (lt_of_lt_of_le (Nat.lt_size_self m) (Nat.pow_le_pow_right (by norm_num) hj))

theorem size_eq_of_highest {m p : Nat} (h1 : m.testBit p = true)
    (h2 : ∀ j, p < j → m.testBit j = false) : Nat.size m = p + 1 := by
  have hub : m < 2 ^ (p + 1) := lt_two_pow_of_high_false (fun j hj => h2 j (by omega))
  have hlb : 2 ^ p ≤ m := ge_two_pow_of_testBit h1
  have hA : Nat.size m ≤ p + 1 := Nat.size_le.mpr hub
  have hB : p < Nat.size m := Nat.lt_size.mpr hlb
  omega

theorem countP_range_lt (s n : Nat) (hs : s ≤ n) :
    (List.range n).countP (fun i => decide (i < s)) = s := by
  rw [show n = s + (n - s) from by omega, List.range_add, List.countP_append]
  have h1 : (List.range s).countP (fun i => decide (i < s)) = s := by
    have hc1 : ∀ x ∈ List.range s,
        ((fun i => decide (i < s)) x = true ↔ (fun _ => true) x = true) := by
      intro x hx
      simp [List.mem_range.mp hx]
    rw [List.countP_congr hc1, List.countP_true, List.length_range]
  have h2 : (((List.range (n - s)).map (s + ·)).countP (fun i => decide (i < s))) = 0 := by
    rw [List.countP_map]
    have hc2 : ∀ x ∈ List.range (n - s),
        (((fun i => decide (i < s)) ∘ (s + ·)) x = true ↔ (fun _ => false) x = true) := by
      intro x _
      simp [Function.comp]
    rw [List.countP_congr hc2, List.countP_false]
    rfl
  omega

theorem bitlen_eq_size {m : Nat} (hm : m < 2 ^ 64) : bitlen m = Nat.size m := by
  have hs : Nat.size m ≤ 64 := Nat.size_le.mpr hm
  rw [bitlen]
  have hp : ∀ i, ((m >>> i != 0) : Bool) = decide (i < Nat.size m) := by
    intro i
    have hiff : (m >>> i ≠ 0) ↔ (i < Nat.size m) := by
      rw [Nat.shiftRight_eq_div_pow]
      rw [Ne, Nat.div_eq_zero_iff (by positivity : 0 < 2 ^ i)]
      push_neg
      rw [← Nat.lt_size]
    rw [Bool.eq_iff_iff]
    simp only [bne_iff_ne, decide_eq_true_eq]
    exact hiff
  calc (List.range 64).countP (fun i => m >>> i != 0)
      = (List.range 64).countP (fun i => decide (i < Nat.size m)) :=
        List.countP_congr (fun i _ => by rw [hp i])
    _ = Nat.size m := countP_range_lt _ _ hs

theorem lanes13_iff (t0 t1 t2 t3 t4 t5 t6 t7 t8 t9 t10 t11 t12 : Bool) :
    (laneBitmask [t0, t1, t2, t3, t4, t5, t6, t7, t8, t9, t10, t11, t12,
        true, true, true] ^^^ (1 <<< 13 ||| 1 <<< 14 ||| 1 <<< 15) = 0)
    ↔ (t0 = false ∧ t1 = false ∧ t2 = false ∧ t3 = false ∧ t4 = false ∧
        t5 = false ∧ t6 = false ∧ t7 = false ∧ t8 = false ∧ t9 = false ∧
        t10 = false ∧ t11 = false ∧ t12 = false) := by
  have hsplit : [t0, t1, t2, t3, t4, t5, t6, t7, t8, t9, t10, t11, t12,
      true, true, true]
      = [t0, t1, t2, t3, t4, t5, t6, t7, t8, t9, t10, t11, t12] ++
        [true, true, true] := rfl
  rw [hsplit, laneBitmask_append]
  have hv := laneBitmask_lt [t0, t1, t2, t3, t4, t5, t6, t7, t8, t9, t10, t11, t12]
  rw [show ([t0, t1, t2, t3, t4, t5, t6, t7, t8, t9, t10, t11, t12] : List Bool).length
    = 13 from rfl] at hv ⊢
  rw [show laneBitmask [true, true, true] = 7 from rfl,
    show (1 <<< 13 ||| 1 <<< 14 ||| 1 <<< 15 : Nat) = 2 ^ 13 * 7 from by decide,
    xor_clear_high hv, laneBitmask_eq_zero_iff]
  simp [List.forall_mem_cons]

/-- The SIMD quads detector finds a fully contained value block exactly when
the scalar one does. -/
theorem quads_boolean_agrees (cards : Nat) :
    (is_quads_simd cards).isSome = (is_quads cards).isSome := by
  suffices h : is_quads_simd cards = none ↔ is_quads cards = none by
    cases hA : is_quads_simd cards with
    | none =>
      cases hB : is_quads cards with
      | none => rfl
      | some b =>
        have hx := h.mp hA
        rw [hB] at hx
        cases hx
    | some a =>
      cases hB : is_quads cards with
      | none =>
        have hx := h.mpr hB
        rw [hA] at hx
        cases hx
      | some b => rfl
  have hz : ∀ c : Nat, (c &&& 0 == 0) = true := by
    intro c
    rw [Nat.and_zero]
    rfl
  simp only [is_quads_simd, is_quads, findSome_none, ifSomeNone, ifNoneSome,
    Bool.not_eq_true]
  simp only [show List.range 13 = [0, 1, 2, 3, 4, 5, 6, 7, 8, 9, 10, 11, 12]
      from by decide,
    List.forall_mem_cons]
  simp only [valueRegs, List.map_cons, List.map_nil, hz, lanes13_iff]
  simp only [beq_land_comm]
  have hT : ∀ {P : Nat → Prop} (x : Nat), x ∈ ([] : List Nat) → P x :=
    fun x hx => absurd hx (List.not_mem_nil x)
  constructor
  · rintro ⟨a0, a1, a2, a3, a4, a5, a6, a7, a8, a9, a10, a11, a12⟩
    exact ⟨a12, a11, a10, a9, a8, a7, a6, a5, a4, a3, a2, a1, a0, hT⟩
  · rintro ⟨b0, b1, b2, b3, b4, b5, b6, b7, b8, b9, b10, b11, b12, -⟩
    exact ⟨b12, b11, b10, b9, b8, b7, b6, b5, b4, b3, b2, b1, b0⟩

/-- The SIMD flush detector finds a five-card suit exactly when the scalar
one does. -/
theorem flush_boolean_agrees (cards : Nat) :
    (is_flush_simd cards).isSome = (is_flush cards).isSome := by
  suffices h : is_flush_simd cards = none ↔ is_flush cards = none by
    cases hA : is_flush_simd cards with
    | none =>
      cases hB : is_flush cards with
      | none => rfl
      | some b =>
        have hx := h.mp hA
        rw [hB] at hx
        cases hx
    | some a =>
      cases hB : is_flush cards with
      | none =>
        have hx := h.mpr hB
        rw [hA] at hx
        cases hx
      | some b => rfl
  have hpc : ∀ r : Nat, popcount (cards &&& r) = popcount (r &&& cards) := by
    intro r
    rw [Nat.land_comm]
  simp only [is_flush_simd, is_flush, findSome_none, ifSomeNone, ifNoneSome,
    Bool.not_eq_true]
  simp only [show List.range 4 = [0, 1, 2, 3] from by decide, List.forall_mem_cons]
  simp only [List.map_cons, List.map_nil, laneBitmask_eq_zero_iff,
    List.forall_mem_cons, decide_eq_false_iff_not, hpc]
  have hT : ∀ {α : Type} {P : α → Prop} (x : α), x ∈ ([] : List α) → P x :=
    fun x hx => absurd hx (List.not_mem_nil x)
  constructor
  · rintro ⟨a0, a1, a2, a3, -⟩
    exact ⟨a0, a1, a2, a3, hT⟩
  · rintro ⟨b0, b1, b2, b3, -⟩
    exact ⟨b0, b1, b2, b3, hT⟩

theorem xor_two_pow_testBit (G p j : Nat) :
    (G ^^^ (1 <<< p)).testBit j = if j = p then !(G.testBit j) else G.testBit j := by
  rw [Nat.testBit_xor, one_shiftLeft_eq]
  by_cases hj : j = p
  · subst hj
    rw [Nat.testBit_two_pow_self, if_pos rfl]
    cases G.testBit j <;> rfl
  · rw [Nat.testBit_two_pow_of_ne (Ne.symm hj), if_neg hj]
    cases G.testBit j <;> rfl

theorem topMask_eq (i : Nat) (hi : i ≤ 12) :
    ((0xF : Nat) <<< 48) >>> (4 * i) = (0xF : Nat) <<< (4 * (12 - i)) := by
  rw [Nat.shiftLeft_eq, Nat.shiftLeft_eq, Nat.shiftRight_eq_div_pow]
  rw [show (48 : Nat) = 4 * (12 - i) + 4 * i from by omega, pow_add, ← mul_assoc]
  exact Nat.mul_div_cancel _ (by positivity)

theorem testBit_eqCount (cards c : Nat) (hc : c ≠ 0) :
    ∀ k, (eqCountMask cards c).testBit k
      = if k ≤ 12 then (popcount (cards &&& ((0xF : Nat) <<< (4 * k))) == c)
        else false := by
  intro k
  by_cases hk12 : k ≤ 12
  · rw [if_pos hk12, eqCountMask, testBit_laneBitmask]
    interval_cases k <;>
      (simp only [blockCounts, valueRegs, List.map_cons, List.map_nil,
        List.getD_cons_zero, List.getD_cons_succ];
       try rfl)
  · rw [if_neg hk12, eqCountMask, testBit_laneBitmask]
    by_cases hk16 : k < 16
    · interval_cases k <;>
        (simp only [blockCounts, valueRegs, List.map_cons, List.map_nil,
          List.getD_cons_zero, List.getD_cons_succ];
         rw [Nat.and_zero, show popcount 0 = 0 from by decide, beq_eq_false_iff_ne];
         exact Ne.symm hc)
    · rw [List.getD_eq_default]
      simp only [blockCounts, valueRegs, List.length_map, List.length_cons,
        List.length_nil]
      omega

theorem testBit_geCount (cards c : Nat) (hc : 0 < c) :
    ∀ k, (geCountMask cards c).testBit k
      = if k ≤ 12 then decide (c ≤ popcount (cards &&& ((0xF : Nat) <<< (4 * k))))
        else false := by
  intro k
  by_cases hk12 : k ≤ 12
  · rw [if_pos hk12, geCountMask, testBit_laneBitmask]
    interval_cases k <;>
      (simp only [blockCounts, valueRegs, List.map_cons, List.map_nil,
        List.getD_cons_zero, List.getD_cons_succ];
       try rfl)
  · rw [if_neg hk12, geCountMask, testBit_laneBitmask]
    by_cases hk16 : k < 16
    · interval_cases k <;>
        (simp only [blockCounts, valueRegs, List.map_cons, List.map_nil,
          List.getD_cons_zero, List.getD_cons_succ];
         rw [Nat.and_zero, show popcount 0 = 0 from by decide, decide_eq_false_iff_not];
         omega)
    · rw [List.getD_eq_default]
      simp only [blockCounts, valueRegs, List.length_map, List.length_cons,
        List.length_nil]
      omega

theorem findSome_isSome {α β : Type} (f : α → Option β) (l : List α) :
    (l.findSome? f).isSome = true ↔ ∃ a ∈ l, (f a).isSome = true := by
  constructor
  · intro h
    by_contra hn
    push_neg at hn
    rw [(findSome_none f l).mpr (fun a ha => by
      have hna := hn a ha
      cases hfa : f a with
      | none => rfl
      | some b => rw [hfa] at hna; simp at hna)] at h
    simp at h
  · rintro ⟨a, ha, hfa⟩
    cases hl : l.findSome? f with
    | none =>
      have := (findSome_none f l).mp hl a ha
      rw [this] at hfa
      simp at hfa
    | some b => rfl

theorem isSome_ite_some {α : Type} {c : Prop} [Decidable c] {x : α} :
    ((if c then some x else none).isSome = true) ↔ c := by
  split
  · simp [*]
  · simp [*]

theorem findSome_eq_some_first {α β : Type} (f : α → Option β) :
    ∀ (l : List α) (v : β), l.findSome? f = some v →
      ∃ k : Nat, ∃ hk : k < l.length, f (l.get ⟨k, hk⟩) = some v ∧
        ∀ j (hj : j < k), f (l.get ⟨j, by omega⟩) = none := by
  intro l
  induction l with
  | nil =>
    intro v h
    rw [List.findSome?] at h
    cases h
  | cons a r ih =>
    intro v h
    rw [List.findSome?] at h
    cases hfa : f a with
    | some b =>
      rw [hfa] at h
      refine ⟨0, by simp, ?_, ?_⟩
      · rw [show (a :: r).get ⟨0, by simp⟩ = a from rfl, hfa]
        exact h
      · intro j hj
        omega
    | none =>
      rw [hfa] at h
      obtain ⟨k, hk, h1, h2⟩ := ih v h
      refine ⟨k + 1, by simp; omega, ?_, ?_⟩
      · exact h1
      · intro j hj
        cases j with
        | zero => exact hfa
        | succ j' => exact h2 j' (by omega)

theorem findSome_range_eq_some_first {β : Type} {n : Nat} {f : Nat → Option β} {v : β}
    (h : (List.range n).findSome? f = some v) :
    ∃ i, i < n ∧ f i = some v ∧ ∀ j, j < i → f j = none := by
  obtain ⟨k, hk, h1, h2⟩ := findSome_eq_some_first f (List.range n) v h
  have hkn : k < n := by
    have := hk
    rwa [List.length_range] at this
  refine ⟨k, hkn, ?_, ?_⟩
  · rw [List.get_range] at h1
    exact h1
  · intro j hj
    have hjl : j < (List.range n).length := by omega
    have := h2 j hj
    rw [List.get_range] at this
    exact this

/-- The SIMD full-house detector agrees with the scalar one on presence:
both require a block of three and a second block of at least two, the SIMD
side excluding the highest triple via the xor, the scalar side via
`i + tmp != 14`. -/
theorem fullhouse_boolean_agrees (cards : Nat) :
    (is_fullhouse_simd cards).isSome = (is_fullhouse cards).isSome := by
  have hbc : ∀ i, i ≤ 12 → popcount ((((0xF : Nat) <<< 48) >>> (4 * i)) &&& cards)
      = popcount (cards &&& ((0xF : Nat) <<< (4 * (12 - i)))) := by
    intro i hi
    rw [topMask_eq i hi, Nat.land_comm]
  have hval3bit := testBit_eqCount cards 3 (by norm_num)
  have hge2bit := testBit_geCount cards 2 (by norm_num)
  simp only [is_fullhouse_simd, is_fullhouse]
  cases hfs : (List.range 13).findSome? (fun i =>
      if popcount ((((0xF : Nat) <<< 48) >>> (4 * i)) &&& cards) = 3 then some (14 - i)
      else none) with
  | none =>
    have heq3 : eqCountMask cards 3 = 0 := by
      apply Nat.eq_of_testBit_eq
      intro k
      rw [Nat.zero_testBit, hval3bit k]
      by_cases hk : k ≤ 12
      · rw [if_pos hk, beq_eq_false_iff_ne]
        intro hcnt
        have hmem : (12 - k) ∈ List.range 13 := by
          rw [List.mem_range]
          omega
        have hnone := (findSome_none _ _).mp hfs (12 - k) hmem
        rw [hbc (12 - k) (by omega), show 12 - (12 - k) = k from by omega] at hnone
        rw [if_pos hcnt] at hnone
        cases hnone
      · rw [if_neg hk]
    rw [heq3, if_pos rfl]
  | some tmp =>
    obtain ⟨i0, hi0, hhit, hmin⟩ := findSome_range_eq_some_first hfs
    have hi0le : i0 ≤ 12 := by omega
    have hp12 : 12 - i0 ≤ 12 := by omega
    have hcond : popcount ((((0xF : Nat) <<< 48) >>> (4 * i0)) &&& cards) = 3 := by
      by_cases hc : popcount ((((0xF : Nat) <<< 48) >>> (4 * i0)) &&& cards) = 3
      · exact hc
      · rw [if_neg hc] at hhit
        cases hhit
    have htmp : tmp = 14 - i0 := by
      rw [if_pos hcond] at hhit
      injection hhit with h'
      exact h'.symm
    have hbcp : popcount (cards &&& ((0xF : Nat) <<< (4 * (12 - i0)))) = 3 := by
      rw [← hbc i0 hi0le]
      exact hcond
    have hbitp : (eqCountMask cards 3).testBit (12 - i0) = true := by
      rw [hval3bit, if_pos hp12, hbcp]
      rfl
    have hhi : ∀ j, 12 - i0 < j → (eqCountMask cards 3).testBit j = false := by
      intro j hj
      rw [hval3bit]
      by_cases hj12 : j ≤ 12
      · rw [if_pos hj12, beq_eq_false_iff_ne]
        intro hcnt
        have hnone := hmin (12 - j) (by omega)
        rw [hbc (12 - j) (by omega), show 12 - (12 - j) = j from by omega] at hnone
        rw [if_pos hcnt] at hnone
        cases hnone
      · rw [if_neg hj12]
    have hne3 : eqCountMask cards 3 ≠ 0 := by
      intro h0
      rw [h0, Nat.zero_testBit] at hbitp
      cases hbitp
    have hlt64 : eqCountMask cards 3 < 2 ^ 64 := by
      have hlen : ((blockCounts cards).map (fun x => x == 3)).length = 16 := by
        simp [blockCounts, valueRegs]
      rw [eqCountMask]
      calc laneBitmask ((blockCounts cards).map (fun x => x == 3))
          < 2 ^ ((blockCounts cards).map (fun x => x == 3)).length :=
            laneBitmask_lt _
        _ ≤ 2 ^ 64 := by
            rw [hlen]
            norm_num
    have hbl : bitlen (eqCountMask cards 3) - 1 = 12 - i0 := by
      rw [bitlen_eq_size hlt64, size_eq_of_highest hbitp hhi]
      omega
    rw [if_neg hne3, hbl]
    have hgp : (geCountMask cards 2).testBit (12 - i0) = true := by
      rw [hge2bit, if_pos hp12, hbcp]
      rfl
    have hgiff : (geCountMask cards 2 ^^^ (1 <<< (12 - i0)) ≠ 0)
        ↔ ∃ j, j ≠ 12 - i0 ∧ (geCountMask cards 2).testBit j = true := by
      rw [ne_zero_iff_exists_testBit]
      constructor
      · rintro ⟨j, hj⟩
        rw [xor_two_pow_testBit] at hj
        by_cases hjp : j = 12 - i0
        · rw [if_pos hjp, hjp, hgp] at hj
          simp at hj
        · rw [if_neg hjp] at hj
          exact ⟨j, hjp, hj⟩
      · rintro ⟨j, hjp, hj⟩
        refine ⟨j, ?_⟩
        rw [xor_two_pow_testBit, if_neg hjp]
        exact hj
    subst htmp
    by_cases hg : geCountMask cards 2 ^^^ (1 <<< (12 - i0)) = 0
    · rw [if_pos hg]
      have hsecond : (List.range 13).findSome? (fun i =>
          if i + (14 - i0) ≠ 14 ∧
            2 ≤ popcount ((((0xF : Nat) <<< 48) >>> (4 * i)) &&& cards)
          then some ((14 - i0) * 100 + (14 - i)) else none) = none := by
        rw [findSome_none]
        intro i hi
        rw [List.mem_range] at hi
        by_cases hcondi : i + (14 - i0) ≠ 14 ∧
            2 ≤ popcount ((((0xF : Nat) <<< 48) >>> (4 * i)) &&& cards)
        · exfalso
          obtain ⟨hc1, hc2⟩ := hcondi
          have hile : i ≤ 12 := by clear * - hi; omega
          have hjne : (12 - i) ≠ 12 - i0 := fun he => hc1 (by
            clear * - he hile hi0le
            omega)
          rw [hbc i hile] at hc2
          refine (hgiff.mpr ⟨12 - i, hjne, ?_⟩) hg
          have hle12 : 12 - i ≤ 12 := by clear * - ; omega
          rw [hge2bit, if_pos hle12]
          simp [hc2]
        · rw [if_neg hcondi]
      show (none : Option Nat).isSome = ((List.range 13).findSome? (fun i =>
        if i + (14 - i0) ≠ 14 ∧
          2 ≤ popcount ((((0xF : Nat) <<< 48) >>> (4 * i)) &&& cards)
        then some ((14 - i0) * 100 + (14 - i)) else none)).isSome
      rw [hsecond]
    · rw [if_neg hg]
      obtain ⟨j, hjp, hj⟩ := hgiff.mp hg
      have hj12 : j ≤ 12 := by
        by_contra hj12
        rw [hge2bit, if_neg hj12] at hj
        cases hj
      rw [hge2bit, if_pos hj12] at hj
      have hj2 : 2 ≤ popcount (cards &&& ((0xF : Nat) <<< (4 * j))) :=
        of_decide_eq_true hj
      have hfind : ((List.range 13).findSome? (fun i =>
          if i + (14 - i0) ≠ 14 ∧
            2 ≤ popcount ((((0xF : Nat) <<< 48) >>> (4 * i)) &&& cards)
          then some ((14 - i0) * 100 + (14 - i)) else none)).isSome = true := by
        rw [findSome_isSome]
        refine ⟨12 - j, by rw [List.mem_range]; clear * - ; omega, ?_⟩
        rw [isSome_ite_some]
        refine ⟨by clear * - hjp hj12 hi0le; omega, ?_⟩
        rw [hbc (12 - j) (by clear * - ; omega),
          show 12 - (12 - j) = j from by clear * - hj12; omega]
        exact hj2
      exact hfind.symm

theorem bc_flip (cards : Nat) : ∀ i, i ≤ 12 →
    popcount ((((0xF : Nat) <<< 48) >>> (4 * i)) &&& cards)
      = popcount (cards &&& ((0xF : Nat) <<< (4 * (12 - i)))) := by
  intro i hi
  rw [topMask_eq i hi, Nat.land_comm]

theorem popcount_eqCount (cards c : Nat) (hc : c ≠ 0) :
    popcount (eqCountMask cards c)
      = (List.range 13).countP
          (fun k => popcount (cards &&& ((0xF : Nat) <<< (4 * k))) == c) := by
  rw [popcount, show (64 : Nat) = 13 + 51 from by norm_num, List.range_add,
    List.countP_append]
  have h1 : (List.range 13).countP (fun i => (eqCountMask cards c).testBit i)
      = (List.range 13).countP
          (fun k => popcount (cards &&& ((0xF : Nat) <<< (4 * k))) == c) := by
    apply List.countP_congr
    intro i hi
    rw [List.mem_range] at hi
    rw [testBit_eqCount cards c hc i, if_pos (show i ≤ 12 from by omega)]
  have h2 : (((List.range 51).map (13 + ·)).countP
      (fun i => (eqCountMask cards c).testBit i)) = 0 := by
    rw [List.countP_map]
    have hall : ∀ x ∈ List.range 51,
        (((fun i => (eqCountMask cards c).testBit i) ∘ (13 + ·)) x = true
          ↔ (fun _ => false) x = true) := by
      intro x _
      simp only [Function.comp]
      rw [testBit_eqCount cards c hc, if_neg (show ¬(13 + x ≤ 12) from by omega)]
    rw [List.countP_congr hall, List.countP_false]
    rfl
  rw [h1, h2]
  omega

theorem foldl_pair_count (cards : Nat) :
    ∀ (l : List Nat) (s : Nat × Nat),
      (l.foldl (fun (s : Nat × Nat) i =>
        if popcount ((((0xF : Nat) <<< 48) >>> (4 * i)) &&& cards) = 2 then
          (s.1 * 100 + (14 - i), s.2 + 1) else s) s).2
      = s.2 + l.countP (fun i =>
          decide (popcount ((((0xF : Nat) <<< 48) >>> (4 * i)) &&& cards) = 2)) := by
  intro l
  induction l with
  | nil =>
    intro s
    simp
  | cons a r ih =>
    intro s
    rw [List.foldl_cons, List.countP_cons]
    by_cases ha : popcount ((((0xF : Nat) <<< 48) >>> (4 * a)) &&& cards) = 2
    · rw [if_pos ha, ih, decide_eq_true ha]
      norm_num
      omega
    · rw [if_neg ha, ih, decide_eq_false ha]
      norm_num

/-- The SIMD two-pair detector agrees with the scalar one on presence: both
count the blocks holding exactly two cards. -/
theorem two_pair_boolean_agrees (cards : Nat) :
    (is_two_pair_simd cards).isSome = (is_two_pair cards).isSome := by
  have hbeqdec : ∀ (x c : Nat), (x == c) = decide (x = c) := by
    intro x c
    rw [Bool.eq_iff_iff]
    simp
  have hperm : ((List.range 13).map (fun i => 12 - i)).Perm (List.range 13) := by decide
  have hc2 : (0 : Nat) ≠ 2 := by norm_num
  simp only [is_two_pair_simd, is_two_pair]
  have hcnt : popcount (eqCountMask cards 2) =
      ((List.range 13).foldl (fun (s : Nat × Nat) i =>
        if popcount ((((0xF : Nat) <<< 48) >>> (4 * i)) &&& cards) = 2 then
          (s.1 * 100 + (14 - i), s.2 + 1) else s) ((0, 0) : Nat × Nat)).2 := by
    rw [foldl_pair_count, popcount_eqCount cards 2 (by norm_num)]
    have e1 : ((List.range 13).map (fun i => 12 - i)).countP
        (fun k => popcount (cards &&& ((0xF : Nat) <<< (4 * k))) == 2)
        = (List.range 13).countP (fun i =>
            popcount (cards &&& ((0xF : Nat) <<< (4 * (12 - i)))) == 2) := by
      rw [List.countP_map]
      rfl
    have e2 := List.Perm.countP_eq
      (fun k => popcount (cards &&& ((0xF : Nat) <<< (4 * k))) == 2) hperm
    have e3 : (List.range 13).countP (fun i =>
          popcount (cards &&& ((0xF : Nat) <<< (4 * (12 - i)))) == 2)
        = (List.range 13).countP (fun i =>
            decide (popcount ((((0xF : Nat) <<< 48) >>> (4 * i)) &&& cards) = 2)) := by
      apply List.countP_congr
      intro i hi
      rw [List.mem_range] at hi
      rw [bc_flip cards i (show i ≤ 12 from by omega), hbeqdec]
    rw [← e2, e1, e3]
    omega
  by_cases hlt : popcount (eqCountMask cards 2) < 2
  · rw [if_pos hlt, if_pos (hcnt ▸ hlt)]
  · rw [if_neg hlt, if_neg (hcnt ▸ hlt)]
    have h2le : 2 ≤ popcount (eqCountMask cards 2) := by omega
    rw [popcount_eqCount cards 2 (by norm_num)] at h2le
    have hpos : 0 < (List.range 13).countP
        (fun k => popcount (cards &&& ((0xF : Nat) <<< (4 * k))) == 2) := by omega
    obtain ⟨k, hk, hpk⟩ := List.countP_pos.mp hpos
    rw [List.mem_range] at hk
    have hbk : popcount (cards &&& ((0xF : Nat) <<< (4 * k))) = 2 := by
      have := hpk
      rw [hbeqdec] at this
      exact of_decide_eq_true this
    have hne : (((0xF : Nat) <<< 48) >>> (4 * (12 - k))) &&& cards ≠ 0 := by
      intro h0
      have hp := bc_flip cards (12 - k) (show 12 - k ≤ 12 from by omega)
      rw [h0, show 12 - (12 - k) = k from by omega,
        show popcount 0 = 0 from by decide] at hp
      rw [← hp] at hbk
      exact absurd hbk (by norm_num)
    refine Eq.symm ((findSome_isSome _ _).mpr ⟨12 - k, ?_, ?_⟩)
    · rw [List.mem_range]
      omega
    · rw [isSome_ite_some, bne_iff_ne]
      exact hne

theorem two_mul_testBit_succ (x j : Nat) : (2 * x).testBit (j + 1) = x.testBit j := by
  rw [Nat.testBit_to_div_mod, Nat.testBit_to_div_mod, pow_succ, mul_comm (2 ^ j) 2,
    Nat.mul_div_mul_left _ _ (by norm_num : 0 < 2)]

theorem two_mul_testBit_zero (x : Nat) : (2 * x).testBit 0 = false := by
  rw [Nat.testBit_to_div_mod]
  simp [Nat.mul_mod_right]

theorem lor_one_of_even (x : Nat) : (2 * x) ||| 1 = 2 * x + 1 := by
  rw [show (1 : Nat) = 2 ^ 0 from rfl,
    lor_two_pow_of_testBit_eq_false (two_mul_testBit_zero x)]

/-- The fold of the scalar `is_straight` key construction, in closed form:
twice the value-presence lane bitmask plus the copied ace bit. -/
theorem straightKey_closed (cards : Nat) :
    straightKey cards
      = 2 * laneBitmask ((valueRegs.map (fun r => cards &&& r)).map (fun h => h != 0))
        + (if (cards &&& ((0xF : Nat) <<< (4 * 12)) != 0) = true then 1 else 0) := by
  have hz0 : ((cards &&& 0 != 0) : Bool) = false := by
    rw [Nat.and_zero]
    rfl
  have hfold : ∀ n, n ≤ 13 →
      (List.range n).foldl (fun kb i =>
        if cards &&& ((0xF : Nat) <<< (4 * i)) != 0 then
          if i = 12 then (kb ||| (1 <<< (i + 1))) ||| 1 else kb ||| (1 <<< (i + 1))
        else kb) 0
      = 2 * laneBitmask ((List.range n).map
          (fun i => ((cards &&& ((0xF : Nat) <<< (4 * i)) != 0) : Bool)))
        + (if n = 13 ∧ (cards &&& ((0xF : Nat) <<< (4 * 12)) != 0) = true
           then 1 else 0) := by
    intro n
    induction n with
    | zero =>
      intro _
      simp [laneBitmask]
    | succ m ih =>
      intro hm
      rw [List.range_succ, List.foldl_append, List.foldl_cons, List.foldl_nil,
        ih (by omega), List.map_append, laneBitmask_append, List.map_cons,
        List.map_nil]
      have hm13 : ¬(m = 13 ∧ (cards &&& ((0xF : Nat) <<< (4 * 12)) != 0) = true) := by
        rintro ⟨h13, -⟩
        omega
      rw [if_neg hm13, Nat.add_zero]
      have hlen : ((List.range m).map
          (fun i => ((cards &&& ((0xF : Nat) <<< (4 * i)) != 0) : Bool))).length = m := by
        rw [List.length_map, List.length_range]
      rw [hlen]
      set L := laneBitmask ((List.range m).map
        (fun i => ((cards &&& ((0xF : Nat) <<< (4 * i)) != 0) : Bool))) with hL
      have hLlt : L < 2 ^ m := by
        have hq := laneBitmask_lt ((List.range m).map
          (fun i => ((cards &&& ((0xF : Nat) <<< (4 * i)) != 0) : Bool)))
        rw [hlen] at hq
        exact hq
      have hpow : (2 : Nat) ^ (m + 1) = 2 ^ m * 2 := pow_succ 2 m
      have hbitfree : (2 * L).testBit (m + 1) = false :=
        Nat.testBit_eq_false_of_lt (by omega)
      cases ha : ((cards &&& ((0xF : Nat) <<< (4 * m)) != 0) : Bool) with
      | false =>
        rw [if_neg (Bool.false_ne_true)]
        rw [show laneBitmask [false] = 0 from rfl]
        have hn13 : ¬(m + 1 = 13 ∧ (cards &&& ((0xF : Nat) <<< (4 * 12)) != 0) = true) := by
          rintro ⟨h13, hc⟩
          have hm12 : m = 12 := by omega
          rw [hm12] at ha
          rw [ha] at hc
          cases hc
        rw [if_neg hn13]
        ring
      | true =>
        rw [if_pos (rfl : (true : Bool) = true)]
        rw [show laneBitmask [true] = 1 from rfl]
        have hor : (2 * L) ||| (1 <<< (m + 1)) = 2 * L + 2 ^ (m + 1) := by
          rw [one_shiftLeft_eq, lor_two_pow_of_testBit_eq_false hbitfree]
        by_cases h13 : m = 12
        · subst h13
          rw [if_pos (rfl : (12 : Nat) = 12), hor]
          have heven : 2 * L + 2 ^ 13 = 2 * (L + 2 ^ 12) := by ring
          rw [heven, lor_one_of_even]
          have hc1 : (12 + 1 = 13 ∧ (cards &&& ((0xF : Nat) <<< (4 * 12)) != 0) = true) :=
            ⟨rfl, ha⟩
          rw [if_pos hc1]
          ring
        · rw [if_neg h13, hor]
          have hn13 : ¬(m + 1 = 13 ∧ (cards &&& ((0xF : Nat) <<< (4 * 12)) != 0) = true) := by
            rintro ⟨hc, -⟩
            omega
          rw [if_neg hn13]
          ring
  have h16 : (valueRegs.map (fun r => cards &&& r)).map (fun h => h != 0)
      = ((List.range 13).map
          (fun i => ((cards &&& ((0xF : Nat) <<< (4 * i)) != 0) : Bool)))
        ++ [cards &&& 0 != 0, cards &&& 0 != 0, cards &&& 0 != 0] := rfl
  rw [straightKey, hfold 13 (le_refl 13), h16, laneBitmask_append]
  simp only [hz0]
  rw [show laneBitmask [false, false, false] = 0 from rfl]
  by_cases hA : (cards &&& ((0xF : Nat) <<< (4 * 12)) != 0) = true
  · have hc1 : (True ∧ (cards &&& ((0xF : Nat) <<< (4 * 12)) != 0) = true) :=
      ⟨trivial, hA⟩
    rw [if_pos hc1, if_pos hA]
    ring
  · have hc1 : ¬(True ∧ (cards &&& ((0xF : Nat) <<< (4 * 12)) != 0) = true) :=
      fun h => hA h.2
    rw [if_neg hc1, if_neg hA]
    ring

/-- Clearing the five always-true low lanes of the straight window bitmask
leaves zero exactly when every real window lane is false. -/
theorem lanes_straight_iff (t5 t6 t7 t8 t9 t10 t11 t12 t13 t14 t15 : Bool) :
    (laneBitmask [true, true, true, true, true,
        t5, t6, t7, t8, t9, t10, t11, t12, t13, t14, t15]
      ^^^ (1 ||| 1 <<< 1 ||| 1 <<< 2 ||| 1 <<< 3 ||| 1 <<< 4) = 0)
    ↔ (t5 = false ∧ t6 = false ∧ t7 = false ∧ t8 = false ∧ t9 = false ∧
        t10 = false ∧ t11 = false ∧ t12 = false ∧ t13 = false ∧
        t14 = false ∧ t15 = false) := by
  have hsplit : [true, true, true, true, true,
      t5, t6, t7, t8, t9, t10, t11, t12, t13, t14, t15]
      = [true, true, true, true, true] ++
        [t5, t6, t7, t8, t9, t10, t11, t12, t13, t14, t15] := rfl
  rw [hsplit, laneBitmask_append,
    show laneBitmask [true, true, true, true, true] = 31 from rfl,
    show ([true, true, true, true, true] : List Bool).length = 5 from rfl,
    show (1 ||| 1 <<< 1 ||| 1 <<< 2 ||| 1 <<< 3 ||| 1 <<< 4 : Nat) = 31 from by decide,
    xor_clear_low (show (31 : Nat) < 2 ^ 5 from by norm_num),
    Nat.mul_eq_zero, laneBitmask_eq_zero_iff]
  simp [List.forall_mem_cons]

/-- The presence mask the SIMD straight detector assembles (value lanes
shifted up one, the ace copied to bit 0) is exactly the scalar key. -/
theorem straight_keys_eq (cards : Nat) :
    (laneBitmask ((valueRegs.map (fun r => cards &&& r)).map (fun h => h != 0)) <<< 1)
      ||| (if 0 < (1 <<< 13) &&&
            (laneBitmask ((valueRegs.map (fun r => cards &&& r)).map
              (fun h => h != 0)) <<< 1)
          then 1 else 0)
      = straightKey cards := by
  have h2 : ∀ x : Nat, x <<< 1 = 2 * x := by
    intro x
    rw [Nat.shiftLeft_eq]
    ring
  set G := laneBitmask ((valueRegs.map (fun r => cards &&& r)).map (fun h => h != 0))
    with hG
  have hbit : (2 * G).testBit 13 = (cards &&& ((0xF : Nat) <<< (4 * 12)) != 0) := by
    rw [two_mul_testBit_succ, hG, testBit_laneBitmask]
    rfl
  have hand : (1 <<< 13) &&& (2 * G) = ((2 * G).testBit 13).toNat * 2 ^ 13 := by
    rw [one_shiftLeft_eq, Nat.land_comm, Nat.and_two_pow]
  by_cases hA : (cards &&& ((0xF : Nat) <<< (4 * 12)) != 0) = true
  · have ht : (2 * G).testBit 13 = true := by
      rw [hbit]
      exact hA
    have hpos : 0 < (1 <<< 13) &&& (2 * G) := by
      rw [hand, ht]
      norm_num
    rw [h2, if_pos hpos, lor_one_of_even, straightKey_closed, ← hG, if_pos hA]
  · have hf : (cards &&& ((0xF : Nat) <<< (4 * 12)) != 0) = false := by
      cases hx : (cards &&& ((0xF : Nat) <<< (4 * 12)) != 0) with
      | false => rfl
      | true => exact absurd hx hA
    have ht : (2 * G).testBit 13 = false := by
      rw [hbit]
      exact hf
    have hnpos : ¬(0 < (1 <<< 13) &&& (2 * G)) := by
      rw [hand, ht]
      norm_num
    rw [h2, if_neg hnpos, Nat.or_zero, straightKey_closed, ← hG, if_neg hA,
      Nat.add_zero]

/-- The SIMD straight detector finds a five-in-a-row window exactly when the
scalar one does. -/
theorem straight_boolean_agrees (cards : Nat) :
    (is_straight_simd cards).isSome = (is_straight cards).isSome := by
  suffices h : is_straight_simd cards = none ↔ is_straight cards = none by
    cases hA : is_straight_simd cards with
    | none =>
      cases hB : is_straight cards with
      | none => rfl
      | some b =>
        have hx := h.mp hA
        rw [hB] at hx
        cases hx
    | some a =>
      cases hB : is_straight cards with
      | none =>
        have hx := h.mpr hB
        rw [hA] at hx
        cases hx
      | some b => rfl
  have hz : ∀ m : Nat, (m &&& 0 == 0) = true := by
    intro m
    rw [Nat.and_zero]
    rfl
  simp only [is_straight_simd, is_straight, findSome_none, ifSomeNone, ifNoneSome,
    Bool.not_eq_true]
  simp only [show List.range 11 = [0, 1, 2, 3, 4, 5, 6, 7, 8, 9, 10] from by decide,
    List.forall_mem_cons, List.forall_mem_nil, and_true]
  simp only [List.map_cons, List.map_nil, hz]
  rw [straight_keys_eq, lanes_straight_iff]
  constructor
  · rintro ⟨s5, s6, s7, s8, s9, s10, s11, s12, s13, s14, s15⟩
    exact ⟨(beq_land_comm _ _).trans s15, (beq_land_comm _ _).trans s14,
      (beq_land_comm _ _).trans s13, (beq_land_comm _ _).trans s12,
      (beq_land_comm _ _).trans s11, (beq_land_comm _ _).trans s10,
      (beq_land_comm _ _).trans s9, (beq_land_comm _ _).trans s8,
      (beq_land_comm _ _).trans s7, (beq_land_comm _ _).trans s6,
      (beq_land_comm _ _).trans s5,
      fun x hx => absurd hx (List.not_mem_nil x)⟩
  · rintro ⟨a0, a1, a2, a3, a4, a5, a6, a7, a8, a9, a10, -⟩
    exact ⟨(beq_land_comm _ _).symm.trans a10, (beq_land_comm _ _).symm.trans a9,
      (beq_land_comm _ _).symm.trans a8, (beq_land_comm _ _).symm.trans a7,
      (beq_land_comm _ _).symm.trans a6, (beq_land_comm _ _).symm.trans a5,
      (beq_land_comm _ _).symm.trans a4, (beq_land_comm _ _).symm.trans a3,
      (beq_land_comm _ _).symm.trans a2, (beq_land_comm _ _).symm.trans a1,
      (beq_land_comm _ _).symm.trans a0⟩

/-- C5 (amended): the SIMD detectors are not bit-exact replacements for
the scalar reference implementations.  The kickers differ already on a
straight flush (see the C5 counterexample), and the pair and
three-of-a-kind detectors do not even agree on presence: on the sparse
masks `0b11` and `0b111` the SIMD detectors report a hand while the
scalar scans, which demand enough occupied side blocks, return `none`
(last two conjuncts).  What does hold, for every card-set bitmask, is
presence agreement (`isSome`) of the straight-flush, quads, full-house,
flush, straight and two-pair detector pairs (first six conjuncts). -/
theorem simd_presence_vs_scalar :
    (∀ cards, (is_straight_flush_simd cards).isSome = (is_straight_flush cards).isSome)
    ∧ (∀ cards, (is_quads_simd cards).isSome = (is_quads cards).isSome)
    ∧ (∀ cards, (is_fullhouse_simd cards).isSome = (is_fullhouse cards).isSome)
    ∧ (∀ cards, (is_flush_simd cards).isSome = (is_flush cards).isSome)
    ∧ (∀ cards, (is_straight_simd cards).isSome = (is_straight cards).isSome)
    ∧ (∀ cards, (is_two_pair_simd cards).isSome = (is_two_pair cards).isSome)
    ∧ ((is_three_of_a_kind_simd 7).isSome = true
        ∧ (is_three_of_a_kind 7).isSome = false)
    ∧ ((is_pair_simd 3).isSome = true ∧ (is_pair 3).isSome = false) :=
  ⟨straight_flush_simd_agrees, quads_boolean_agrees, fullhouse_boolean_agrees,
    flush_boolean_agrees, straight_boolean_agrees, two_pair_boolean_agrees,
    ⟨by decide, by decide⟩, ⟨by decide, by decide⟩⟩

end PokerOdds
